import Mathlib

set_option linter.unusedSectionVars false
set_option linter.unusedVariables false

/-!
Shallow embedding of the `neuroncore` automatic-differentiation core
(`src/tensor.rs`, `src/tensor_index.rs`, `src/ops.rs`, `src/graph.rs`,
`src/prng.rs`).

Modelling conventions:
* `f32` values are modelled exactly by `Fl α` over a linear-ordered field
  `α`: either an exact value `Fl.val x` or `Fl.nan`.  Rounding and the
  infinities are not modelled (no claim depends on them); the one place the
  source folds from `f32::NEG_INFINITY` (softmax row maxima) uses an
  `Option` accumulator where `none` plays the role of the fold seed.
* The transcendental `f32` primitives `ln`/`exp` are abstracted into a
  `Transcend` record of scalar functions; theorems quantify over it.
* Rust `Result` becomes `Except Err`; a Rust panic (`expect`/`unwrap` on
  the gradient-accumulation path, `ones_like`) and non-termination of the
  recursive graph walks are both modelled as `Option.none` around the
  result, via explicit fuel.
* Error message payloads keep only the static part of the source's
  formatted strings; the structured numeric fields are kept exactly.
-/

/-- `ComputeError` from `src/error.rs`. -/
inductive Err where
  | shapeMismatch (expected got : Nat)
  | dimensionError (message : String)
  | inputCountError (expected got : Nat)
  | broadcastError (dim shape1 shape2 : Nat)
  | invalidOperation (message : String)
  | indexError (message : String)
deriving DecidableEq, Repr

instance {ε A : Type} [DecidableEq ε] [DecidableEq A] : DecidableEq (Except ε A) := fun x y =>
  match x, y with
  | .ok a, .ok b =>
    if h : a = b then isTrue (by rw [h]) else isFalse (by intro he; cases he; exact h rfl)
  | .error e, .error f =>
    if h : e = f then isTrue (by rw [h]) else isFalse (by intro he; cases he; exact h rfl)
  | .ok _, .error _ => isFalse (fun he => Except.noConfusion he)
  | .error _, .ok _ => isFalse (fun he => Except.noConfusion he)

/-- An `f32` value: an exact scalar or NaN. -/
inductive Fl (α : Type) where
  | val (x : α)
  | nan
deriving DecidableEq, Repr

variable {α : Type} [Field α] [LinearOrder α]

/-- `a + b` on `f32`: NaN-propagating exact addition. -/
def Fl.add : Fl α → Fl α → Fl α
  | .val a, .val b => .val (a + b)
  | _, _ => .nan

/-- `a - b` on `f32`. -/
def Fl.sub : Fl α → Fl α → Fl α
  | .val a, .val b => .val (a - b)
  | _, _ => .nan

/-- `a * b` on `f32`. -/
def Fl.mul : Fl α → Fl α → Fl α
  | .val a, .val b => .val (a * b)
  | _, _ => .nan

/-- `-v` on `f32` (used by the in-place negations in `ops.rs`). -/
def Fl.neg : Fl α → Fl α
  | .val a => .val (-a)
  | .nan => .nan

/-- The guarded division closure of `Tensor::divide`:
`|a, b| if b != 0.0 { a / b } else { f32::NAN }`.  Note that a NaN divisor
passes the `b != 0.0` test and then propagates NaN through `a / b`. -/
def Fl.divGuard : Fl α → Fl α → Fl α
  | a, .val b => if b = 0 then .nan else
      match a with
      | .val x => .val (x / b)
      | .nan => .nan
  | _, .nan => .nan

/-- `v.max(0.0)` from `Tensor::relu`; `f32::max` returns the other operand
when one side is NaN, so NaN maps to `0.0`. -/
def Fl.reluVal : Fl α → Fl α
  | .val a => .val (max a 0)
  | .nan => .val 0

/-- `f32::max` step used in the softmax folds, with `none` standing for the
`f32::NEG_INFINITY` seed (`f32::max` ignores a NaN operand). -/
def Fl.maxStep : Option (Fl α) → Fl α → Option (Fl α)
  | none, .val b => some (.val b)
  | none, .nan => none
  | some (.val a), .val b => some (.val (max a b))
  | some (.val a), .nan => some (.val a)
  | some .nan, v => some v

/-- `x - m` where `m` is a softmax row maximum (`none` = `-∞`; that case
only arises when every row entry is NaN, so the subtraction result is NaN
on all reachable inputs). -/
def Fl.subMax : Fl α → Option (Fl α) → Fl α
  | x, some m => Fl.sub x m
  | _, none => .nan

/-- Abstract interface for the `f32` transcendental primitives `v.ln()` and
`v.exp()` used by `LogOp` and softmax.  Theorems quantify over it. -/
structure Transcend (α : Type) where
  exp : Fl α → Fl α
  ln : Fl α → Fl α

/-- Trivial instantiation of `Transcend` used by concrete witnesses whose
graphs contain no `Log`/`Softmax` node. -/
def tcTriv : Transcend α := ⟨id, id⟩

/-- `XorShift32` state (`src/prng.rs`): a `u32`, modelled as `Nat < 2^32`. -/
def XorShift32.new (seed : Nat) : Nat :=
  if seed % 2 ^ 32 = 0 then 0x6d2b79f5 else seed % 2 ^ 32

/-- `XorShift32::next_u32`: the xorshift step, returning the new state. -/
def XorShift32.next_u32 (state : Nat) : Nat :=
  let x1 := (state ^^^ (state <<< 13)) % 2 ^ 32
  let x2 := (x1 ^^^ (x1 >>> 17)) % 2 ^ 32
  (x2 ^^^ (x2 <<< 5)) % 2 ^ 32

/-- `XorShift32::next_f32`: `(next_u32() >> 8) as f32 / 2^24` (exact: the
24-bit value divided by `2^24` is representable, so no rounding occurs). -/
def XorShift32.next_f32 (state : Nat) : Fl α × Nat :=
  let s := XorShift32.next_u32 state
  (.val ((s >>> 8 : Nat) / (2 ^ 24 : α)), s)

/-- `XorShift32::gen_range_f32(low, high) = low + (high-low) * next_f32()`. -/
def XorShift32.gen_range_f32 (low high : Fl α) (state : Nat) : Fl α × Nat :=
  let (v, s) := XorShift32.next_f32 (α := α) state
  (Fl.add low (Fl.mul (Fl.sub high low) v), s)

/-- The `Tensor` struct from `src/tensor.rs`. -/
structure Tensor (α : Type) where
  data : List (Fl α)
  shape : List Nat
  strides : List Nat
deriving DecidableEq, Repr

/-- `Tensor::compute_strides`: row-major strides,
`strides[i] = product(shape[i+1..])`, last stride `1`. -/
def compute_strides : List Nat → List Nat
  | [] => []
  | _ :: rest => rest.prod :: compute_strides rest

/-- `Tensor::new`. -/
def Tensor.new (data : List (Fl α)) (shape : List Nat) : Except Err (Tensor α) :=
  if shape = [] then
    .error (.dimensionError "shape must have at least 1 dimension")
  else
    let expected := shape.prod
    if data.length ≠ expected then
      .error (.shapeMismatch expected data.length)
    else
      .ok ⟨data, shape, compute_strides shape⟩

/-- `Tensor::zeros`. -/
def Tensor.zeros (shape : List Nat) : Except Err (Tensor α) :=
  Tensor.new (List.replicate shape.prod (Fl.val 0)) shape

/-- `Tensor::ones`. -/
def Tensor.ones (shape : List Nat) : Except Err (Tensor α) :=
  Tensor.new (List.replicate shape.prod (Fl.val 1)) shape

/-- `Tensor::zeros_like`. -/
def Tensor.zeros_like (other : Tensor α) : Except Err (Tensor α) :=
  Tensor.zeros other.shape

/-- `Tensor::ones_like`; the source `.expect`s the result (a panic on an
invalid shape), so the embedding keeps the fallible result and the panic is
handled at the call sites. -/
def Tensor.ones_like (other : Tensor α) : Except Err (Tensor α) :=
  Tensor.ones other.shape

/-- The sampling loop of `Tensor::random`. -/
def randomData (size : Nat) (state : Nat) : List (Fl α) :=
  match size with
  | 0 => []
  | n + 1 =>
    let (v, s) := XorShift32.gen_range_f32 (α := α) (.val (-1)) (.val 1) state
    v :: randomData n s

/-- `Tensor::random`. -/
def Tensor.random (shape : List Nat) (seed : Nat) : Except Err (Tensor α) :=
  Tensor.new (randomData shape.prod (XorShift32.new seed)) shape

/-- `Tensor::unravel_index_static` (flat offset to coordinates; the source
divides by the precomputed strides, i.e. by the tail products). -/
def unravel_static : Nat → List Nat → List Nat
  | _, [] => []
  | rem, _ :: ss => rem / ss.prod :: unravel_static (rem % ss.prod) ss

/-- `Tensor::ravel_index_static` (`Σ indices[i] * strides[i]`, no checks). -/
def ravel_static (indices shape : List Nat) : Nat :=
  (List.zipWith (· * ·) indices (compute_strides shape)).sum

/-- The per-dimension combination inside `Tensor::broadcast_shapes`:
equal dims pass through, a `1` stretches, anything else is a
`BroadcastError` carrying the dimension index and both aligned sizes. -/
def bcastDim (i ai bi : Nat) : Except Err Nat :=
  if ai = bi then .ok ai
  else if ai = 1 then .ok bi
  else if bi = 1 then .ok ai
  else .error (.broadcastError i ai bi)

/-- The loop of `Tensor::broadcast_shapes`, running over the two shapes
left-padded with `1`s to the common rank (exactly the source's
`if i >= max_dims - len { s[i - (max_dims - len)] } else { 1 }` reads). -/
def bcastZip : Nat → List Nat → List Nat → Except Err (List Nat)
  | _, [], [] => .ok []
  | i, ai :: as_, bi :: bs => do
    let d ← bcastDim i ai bi
    let rest ← bcastZip (i + 1) as_ bs
    .ok (d :: rest)
  | _, _, _ => .ok []

/-- Left-pad a shape with `1`s to rank `n` (right-aligned view). -/
def padOnes (n : Nat) (s : List Nat) : List Nat :=
  List.replicate (n - s.length) 1 ++ s

/-- Left-pad strides with `0`s to rank `n`. -/
def padZeros (n : Nat) (s : List Nat) : List Nat :=
  List.replicate (n - s.length) 0 ++ s

/-- `Tensor::broadcast_shapes`. -/
def broadcast_shapes (a b : List Nat) : Except Err (List Nat) :=
  let maxDims := max a.length b.length
  bcastZip 0 (padOnes maxDims a) (padOnes maxDims b)

/-- The accumulation loop of `Tensor::broadcasted_flat_index`, walking the
output coordinates against the (padded) operand shape and strides: a
size-1 operand dimension maps to index 0 and contributes stride `0` when it
comes from padding. -/
def bfiGo : List Nat → List Nat → List Nat → Except Err Nat
  | oi :: ois, td :: tds, ts :: tss =>
    let idx := if td = 1 then 0 else oi
    if td ≤ idx then .error (.indexError "index out of bounds for dim")
    else do
      let rest ← bfiGo ois tds tss
      .ok (idx * ts + rest)
  | _, _, _ => .ok 0

/-- `Tensor::broadcasted_flat_index`. -/
def Tensor.broadcasted_flat_index (t : Tensor α) (outIndices outShape : List Nat) :
    Except Err Nat :=
  if outIndices.length ≠ outShape.length then
    .error (.indexError "out_indices rank mismatch")
  else
    bfiGo outIndices (padOnes outShape.length t.shape) (padZeros outShape.length t.strides)

/-- The write loop of `Tensor::elementwise_op`: output elements for the
flat offsets `first, first+1, ..., first+n-1` (reads out of bounds of the
operand buffers — impossible for valid tensors — yield NaN). -/
def ewData (t other : Tensor α) (f : Fl α → Fl α → Fl α) (outShape : List Nat) :
    Nat → Nat → Except Err (List (Fl α))
  | _, 0 => .ok []
  | first, n + 1 => do
    let outIdx := unravel_static first outShape
    let aFlat ← t.broadcasted_flat_index outIdx outShape
    let bFlat ← other.broadcasted_flat_index outIdx outShape
    let rest ← ewData t other f outShape (first + 1) n
    .ok (f (t.data.getD aFlat .nan) (other.data.getD bFlat .nan) :: rest)

/-- `Tensor::elementwise_op`. -/
def Tensor.elementwise_op (t other : Tensor α) (f : Fl α → Fl α → Fl α) :
    Except Err (Tensor α) := do
  let outShape ← broadcast_shapes t.shape other.shape
  let out ← Tensor.zeros (α := α) outShape
  let data ← ewData t other f outShape 0 out.data.length
  .ok { out with data := data }

/-- `Tensor::add`. -/
def Tensor.add (t other : Tensor α) : Except Err (Tensor α) :=
  t.elementwise_op other Fl.add

/-- `Tensor::subtract`. -/
def Tensor.subtract (t other : Tensor α) : Except Err (Tensor α) :=
  t.elementwise_op other Fl.sub

/-- `Tensor::multiply`. -/
def Tensor.multiply (t other : Tensor α) : Except Err (Tensor α) :=
  t.elementwise_op other Fl.mul

/-- `Tensor::divide` (division by zero yields NaN, never an error). -/
def Tensor.divide (t other : Tensor α) : Except Err (Tensor α) :=
  t.elementwise_op other Fl.divGuard

/-- The inner accumulation of `Tensor::matmul`:
`sum += a[i*k+p] * b[p*n+j]` for `p in 0..k`, starting from `0.0`. -/
def matmulCell (t other : Tensor α) (k n i j : Nat) : Fl α :=
  (List.range k).foldl
    (fun s p => Fl.add s (Fl.mul (t.data.getD (i * k + p) .nan)
      (other.data.getD (p * n + j) .nan)))
    (Fl.val 0)

/-- `Tensor::matmul`. -/
def Tensor.matmul (t other : Tensor α) : Except Err (Tensor α) :=
  if t.shape.length ≠ 2 ∨ other.shape.length ≠ 2 then
    .error (.dimensionError "matmul requires 2D tensors")
  else
    let m := t.shape.getD 0 0
    let k := t.shape.getD 1 0
    let kOther := other.shape.getD 0 0
    let n := other.shape.getD 1 0
    if k ≠ kOther then
      .error (.invalidOperation "matmul dimension mismatch")
    else
      Tensor.new
        ((List.range (m * n)).map (fun o => matmulCell t other k n (o / n) (o % n)))
        [m, n]

/-- `Tensor::transpose_2d` (`out[c*rows + r] = data[r*cols + c]`). -/
def Tensor.transpose_2d (t : Tensor α) : Except Err (Tensor α) :=
  if t.shape.length ≠ 2 then
    .error (.dimensionError "transpose_2d requires a 2D tensor")
  else
    let rows := t.shape.getD 0 0
    let cols := t.shape.getD 1 0
    Tensor.new
      ((List.range (rows * cols)).map
        (fun o => t.data.getD ((o % rows) * cols + o / rows) .nan))
      [cols, rows]

/-- `Tensor::relu`. -/
def Tensor.relu (t : Tensor α) : Except Err (Tensor α) :=
  Tensor.new (t.data.map Fl.reluVal) t.shape

/-- The axis-reduction loop of `Tensor::sum`: for every flat input offset,
zero the reduced coordinate and accumulate into the raveled output slot. -/
def sumAxisData (t : Tensor α) (axis : Nat) (outShape : List Nat) : List (Fl α) :=
  (List.range t.data.length).foldl
    (fun acc flat =>
      let idx := (unravel_static flat t.shape).set axis 0
      let outFlat := ravel_static idx outShape
      acc.set outFlat (Fl.add (acc.getD outFlat .nan) (t.data.getD flat .nan)))
    (List.replicate outShape.prod (Fl.val 0))

/-- `Tensor::sum`. -/
def Tensor.sum (t : Tensor α) (dim : Option Nat) : Except Err (Tensor α) :=
  match dim with
  | none => Tensor.new [t.data.foldl Fl.add (Fl.val 0)] [1]
  | some axis =>
    if t.shape.length ≤ axis then
      .error (.dimensionError "invalid axis for rank")
    else
      let outShape := t.shape.set axis 1
      Tensor.new (sumAxisData t axis outShape) outShape

/-- `ravel_index`'s checked accumulation (`src/tensor_index.rs`): bounds
check each coordinate, then `Σ idx[i] * strides[i]`. -/
def ravelChecked : List Nat → List Nat → Except Err Nat
  | i :: is_, s :: ss =>
    if s ≤ i then .error (.indexError "index out of bounds for dim with size")
    else do
      let rest ← ravelChecked is_ ss
      .ok (i * ss.prod + rest)
  | _, _ => .ok 0

/-- `tensor_index::ravel_index`. -/
def ravel_index (idx shape : List Nat) : Except Err Nat :=
  if idx.length ≠ shape.length then
    .error (.dimensionError "rank mismatch: idx rank != shape rank")
  else ravelChecked idx shape

/-- `tensor_index::unravel_index`. -/
def unravel_index (flat : Nat) (shape : List Nat) : Except Err (List Nat) :=
  if shape.prod ≤ flat then
    .error (.indexError "flat index out of bounds for elements")
  else .ok (unravel_static flat shape)

/-- `validate_invert_args` from `src/ops.rs`: `known` must have length
`arity`, `solve_for` in range, `known[solve_for]` absent, all others
present. -/
def validate_invert_args (known : List (Option (Tensor α))) (solve_for arity : Nat) :
    Except Err Unit :=
  if known.length ≠ arity then
    .error (.inputCountError arity known.length)
  else if arity ≤ solve_for then
    .error (.indexError "solve_for out of bounds for arity")
  else if (known.getD solve_for none).isSome then
    .error (.invalidOperation "known[solve_for] must be None")
  else
    match (List.range arity).find? (fun i => i ≠ solve_for ∧ (known.getD i none) = none) with
    | some _ => .error (.invalidOperation "known[i] must be Some (only solve_for may be None)")
    | none => .ok ()

/-- `InvertibleOp for AddOp`: `out − other` for either position.  The
source `unwrap`s `known[1 - solve_for]`, unreachable after validation; the
embedding returns an error there. -/
def AddOp.invert (output : Tensor α) (known : List (Option (Tensor α))) (solve_for : Nat) :
    Except Err (Tensor α) := do
  validate_invert_args known solve_for 2
  match known.getD (1 - solve_for) none with
  | some other => output.subtract other
  | none => .error (.invalidOperation "unreachable: validated")

/-- `InvertibleOp for SubtractOp`: `a = out + b`, `b = a − out`. -/
def SubtractOp.invert (output : Tensor α) (known : List (Option (Tensor α))) (solve_for : Nat) :
    Except Err (Tensor α) := do
  validate_invert_args known solve_for 2
  match known.getD (1 - solve_for) none with
  | some other =>
    match solve_for with
    | 0 => output.add other
    | _ => other.subtract output
  | none => .error (.invalidOperation "unreachable: validated")

/-- `InvertibleOp for MultiplyOp`: `out / other` for either position. -/
def MultiplyOp.invert (output : Tensor α) (known : List (Option (Tensor α))) (solve_for : Nat) :
    Except Err (Tensor α) := do
  validate_invert_args known solve_for 2
  match known.getD (1 - solve_for) none with
  | some other => output.divide other
  | none => .error (.invalidOperation "unreachable: validated")

/-- `InvertibleOp for DivideOp`: `a = out * b`, `b = a / out`. -/
def DivideOp.invert (output : Tensor α) (known : List (Option (Tensor α))) (solve_for : Nat) :
    Except Err (Tensor α) := do
  validate_invert_args known solve_for 2
  match known.getD (1 - solve_for) none with
  | some other =>
    match solve_for with
    | 0 => output.multiply other
    | _ => other.divide output
  | none => .error (.invalidOperation "unreachable: validated")

/-- `InvertibleOp for LogOp`: `x = exp(out)` elementwise. -/
def LogOp.invert (tc : Transcend α) (output : Tensor α)
    (known : List (Option (Tensor α))) (solve_for : Nat) : Except Err (Tensor α) := do
  validate_invert_args known solve_for 1
  Tensor.new (output.data.map tc.exp) output.shape

/-- The closed operation catalog (spec §9 blesses a closed sum type for the
`Op` trait objects: Add, Subtract, Multiply, Divide, MatMul, Relu,
Sum{dim}, Log, Softmax). -/
inductive OpKind where
  | add
  | subtract
  | multiply
  | divide
  | matmul
  | relu
  | sumOp (dim : Option Nat)
  | log
  | softmax
deriving DecidableEq, Repr

/-- `softmax_1d`: subtract the row maximum, exponentiate, normalize. -/
def softmax_1d (tc : Transcend α) (x : Tensor α) : Except Err (Tensor α) :=
  let n := x.shape.getD 0 0
  let m := x.data.foldl Fl.maxStep none
  let exps := x.data.map (fun v => tc.exp (Fl.subMax v m))
  let s := exps.foldl Fl.add (Fl.val 0)
  Tensor.new (exps.map (fun e => Fl.divGuard e s)) [n]

/-- One row of `softmax_2d` (`cols` entries starting at `base`). -/
def softmaxRow (tc : Transcend α) (row : List (Fl α)) : List (Fl α) :=
  let m := row.foldl Fl.maxStep none
  let exps := row.map (fun v => tc.exp (Fl.subMax v m))
  let s := exps.foldl Fl.add (Fl.val 0)
  exps.map (fun e => Fl.divGuard e s)

/-- `softmax_2d`: the row-wise loop, reassembled row by row. -/
def softmax_2d (tc : Transcend α) (x : Tensor α) : Except Err (Tensor α) :=
  let rows := x.shape.getD 0 0
  let cols := x.shape.getD 1 0
  Tensor.new
    ((List.range rows).flatMap
      (fun r => softmaxRow tc ((x.data.drop (r * cols)).take cols)))
    [rows, cols]

/-- `Op::forward` dispatch over the catalog, with each variant's arity
check exactly as in `src/ops.rs`. -/
def opForward (tc : Transcend α) : OpKind → List (Tensor α) → Except Err (Tensor α)
  | .add, [a, b] => a.add b
  | .add, l => .error (.inputCountError 2 l.length)
  | .subtract, [a, b] => a.subtract b
  | .subtract, l => .error (.inputCountError 2 l.length)
  | .multiply, [a, b] => a.multiply b
  | .multiply, l => .error (.inputCountError 2 l.length)
  | .divide, [a, b] => a.divide b
  | .divide, l => .error (.inputCountError 2 l.length)
  | .matmul, [a, b] => a.matmul b
  | .matmul, l => .error (.inputCountError 2 l.length)
  | .relu, [x] => x.relu
  | .relu, l => .error (.inputCountError 1 l.length)
  | .sumOp d, [x] => x.sum d
  | .sumOp _, l => .error (.inputCountError 1 l.length)
  | .log, [x] => Tensor.new (x.data.map tc.ln) x.shape
  | .log, l => .error (.inputCountError 1 l.length)
  | .softmax, [x] =>
    if x.shape.length = 1 then softmax_1d tc x
    else if x.shape.length = 2 then softmax_2d tc x
    else .error (.dimensionError "softmax supports 1D or 2D tensors")
  | .softmax, l => .error (.inputCountError 1 l.length)

/-- `ReluOp::backward`: pass the gradient through where the input is
strictly positive (a NaN input is not `> 0.0`, so it masks to `0.0`). -/
def reluBackData (input gradOut : List (Fl α)) : List (Fl α) :=
  (List.range input.length).map (fun i =>
    match input.getD i .nan with
    | .val x => if 0 < x then gradOut.getD i (.val 0) else .val 0
    | .nan => .val 0)

/-- `SumOp::backward` for `dim = Some(axis)`: every input position reads
the gradient at its reduced coordinate. -/
def sumBackData (input gradOut : Tensor α) (axis : Nat) : Except Err (List (Fl α)) :=
  (List.range input.data.length).mapM (fun flat => do
    let idx ← unravel_index flat input.shape
    let gFlat ← ravel_index (idx.set axis 0) gradOut.shape
    .ok (gradOut.data.getD gFlat (.val 0)))

/-- `LogOp::backward` data: `grad_output[i] / x[i]` — the raw `f32`
division (no zero guard), so a zero input yields an unguarded `x / 0`,
which this exact model collapses to NaN (IEEE would give ±∞). -/
def logBackData (x gradOut : List (Fl α)) : List (Fl α) :=
  (List.range x.length).map (fun i =>
    match gradOut.getD i .nan, x.getD i .nan with
    | .val g, .val v => if v = 0 then .nan else .val (g / v)
    | _, _ => .nan)

/-- `SoftmaxOp::backward` for one row: `y ⊙ (grad − Σ(grad ⊙ y))`. -/
def softmaxBackRow (gradRow yRow : List (Fl α)) : List (Fl α) :=
  let dot := (List.zipWith Fl.mul gradRow yRow).foldl Fl.add (Fl.val 0)
  List.zipWith (fun y g => Fl.mul y (Fl.sub g dot)) yRow gradRow

/-- `Op::backward` dispatch over the catalog (`src/ops.rs`): note that
`AddOp`/`SubtractOp` perform no arity re-check, while the other variants
do, exactly as in the source. -/
def opBackward (tc : Transcend α) :
    OpKind → List (Tensor α) → Tensor α → Except Err (List (Tensor α))
  | .add, _, gradOut => .ok [gradOut, gradOut]
  | .subtract, _, gradOut => .ok [gradOut, { gradOut with data := gradOut.data.map Fl.neg }]
  | .multiply, [a, b], gradOut => do
    let ga ← gradOut.multiply b
    let gb ← gradOut.multiply a
    .ok [ga, gb]
  | .multiply, l, _ => .error (.inputCountError 2 l.length)
  | .divide, [a, b], gradOut => do
    let ga ← gradOut.divide b
    let b2 ← b.multiply b
    let num ← gradOut.multiply a
    let gb ← num.divide b2
    .ok [ga, { gb with data := gb.data.map Fl.neg }]
  | .divide, l, _ => .error (.inputCountError 2 l.length)
  | .matmul, [a, b], gradOut => do
    let bT ← b.transpose_2d
    let aT ← a.transpose_2d
    let ga ← gradOut.matmul bT
    let gb ← aT.matmul gradOut
    .ok [ga, gb]
  | .matmul, l, _ => .error (.inputCountError 2 l.length)
  | .relu, [x], gradOut =>
    if x.data.length ≠ gradOut.data.length then
      .error (.shapeMismatch x.data.length gradOut.data.length)
    else do
      let z ← Tensor.zeros_like x
      .ok [{ z with data := reluBackData x.data gradOut.data }]
  | .relu, l, _ => .error (.inputCountError 1 l.length)
  | .sumOp none, [x], gradOut => do
    let z ← Tensor.zeros_like x
    let g := gradOut.data.headD (.val 0)
    .ok [{ z with data := List.replicate z.data.length g }]
  | .sumOp (some axis), [x], gradOut =>
    if x.shape.length ≤ axis then
      .error (.dimensionError "invalid axis for rank")
    else do
      let z ← Tensor.zeros_like x
      let d ← sumBackData x gradOut axis
      .ok [{ z with data := d }]
  | .sumOp _, l, _ => .error (.inputCountError 1 l.length)
  | .log, [x], gradOut =>
    if x.data.length ≠ gradOut.data.length then
      .error (.shapeMismatch x.data.length gradOut.data.length)
    else do
      let z ← Tensor.zeros_like x
      .ok [{ z with data := logBackData x.data gradOut.data }]
  | .log, l, _ => .error (.inputCountError 1 l.length)
  | .softmax, [x], gradOut => do
    let y ← opForward tc .softmax [x]
    if x.shape.length = 1 then
      let n := x.shape.getD 0 0
      if gradOut.shape ≠ [n] then .error (.invalidOperation "grad_output shape mismatch")
      else Tensor.new (softmaxBackRow gradOut.data y.data) [n] |>.map (fun t => [t])
    else
      let rows := x.shape.getD 0 0
      let cols := x.shape.getD 1 0
      if gradOut.shape ≠ [rows, cols] then
        .error (.invalidOperation "grad_output shape mismatch")
      else
        Tensor.new
          ((List.range rows).flatMap (fun r =>
            softmaxBackRow ((gradOut.data.drop (r * cols)).take cols)
              ((y.data.drop (r * cols)).take cols)))
          [rows, cols] |>.map (fun t => [t])
  | .softmax, l, _ => .error (.inputCountError 1 l.length)

/-- `Node` from `src/graph.rs`. -/
inductive Node (α : Type) where
  | input (t : Tensor α)
  | parameter (t : Tensor α) (requires_grad : Bool)
  | operation (op : OpKind) (input_node_ids : List Nat)
deriving DecidableEq, Repr

/-- `Graph`: the append-only node arena plus the gradient map.  The
`HashMap<usize, Tensor>` is modelled as an association list where an insert
shadows older entries; only `lookup` observes it. -/
structure Graph (α : Type) where
  nodes : List (Node α)
  gradients : List (Nat × Tensor α)
deriving DecidableEq, Repr

/-- `Graph::new`. -/
def Graph.new : Graph α := ⟨[], []⟩

/-- `Graph::add_input` (returns the updated graph and the node index). -/
def Graph.add_input (g : Graph α) (t : Tensor α) : Graph α × Nat :=
  ({ g with nodes := g.nodes ++ [.input t] }, g.nodes.length)

/-- `Graph::add_parameter`. -/
def Graph.add_parameter (g : Graph α) (t : Tensor α) (rg : Bool) : Graph α × Nat :=
  ({ g with nodes := g.nodes ++ [.parameter t rg] }, g.nodes.length)

/-- `Graph::apply_op` (no validation of the input indices, as in the
source). -/
def Graph.apply_op (g : Graph α) (op : OpKind) (inputs : List Nat) : Graph α × Nat :=
  ({ g with nodes := g.nodes ++ [.operation op inputs] }, g.nodes.length)

/-- `HashMap::insert` on the gradient map. -/
def insertGrad (m : List (Nat × Tensor α)) (k : Nat) (v : Tensor α) :
    List (Nat × Tensor α) :=
  (k, v) :: m

/-- `Graph::get_gradient`. -/
def Graph.get_gradient (g : Graph α) (i : Nat) : Option (Tensor α) :=
  g.gradients.lookup i

/-- `Graph::zero_grad`. -/
def Graph.zero_grad (g : Graph α) : Graph α := { g with gradients := [] }

/-- `Graph::node_requires_grad`: stored flag for parameters, `true` for
operations, `false` for inputs and out-of-range indices. -/
def Graph.node_requires_grad (g : Graph α) (i : Nat) : Bool :=
  match g.nodes[i]? with
  | some (.parameter _ rg) => rg
  | some (.operation _ _) => true
  | some (.input _) => false
  | none => false

/-- The input-collection loop inside `Graph::forward` (and reused by
`Graph::backward`): evaluate the referenced nodes in index order with the
given evaluator, stopping at the first divergence or error. -/
def collectF {A : Type} (f : Nat → Option (Except Err A)) :
    List Nat → Option (Except Err (List A))
  | [] => some (.ok [])
  | j :: js =>
    match f j with
    | none => none
    | some (.error e) => some (.error e)
    | some (.ok t) =>
      match collectF f js with
      | none => none
      | some (.error e) => some (.error e)
      | some (.ok ts) => some (.ok (t :: ts))

/-- `Graph::forward`, with explicit fuel for the unbounded recursion (the
source recursion need not terminate on malformed graphs); `none` means the
fuel ran out, i.e. the source would still be recursing. -/
def forwardF (tc : Transcend α) (g : Graph α) : Nat → Nat → Option (Except Err (Tensor α))
  | 0 => fun _ => none
  | fuel + 1 => fun i =>
    match g.nodes[i]? with
    | none => some (.error (.indexError "node index out of bounds"))
    | some (.input t) => some (.ok t)
    | some (.parameter t _) => some (.ok t)
    | some (.operation op idxs) =>
      match collectF (forwardF tc g fuel) idxs with
      | none => none
      | some (.error e) => some (.error e)
      | some (.ok inputs) => some (opForward tc op inputs)

/-- Evaluating a list of node indices (`forwardF` mapped with early exit). -/
def forwardList (tc : Transcend α) (fuel : Nat) (g : Graph α) (idxs : List Nat) :
    Option (Except Err (List (Tensor α))) :=
  collectF (forwardF tc g fuel) idxs

/-- The loop over an operation's inputs inside the topological-sort `dfs`,
threading the visited set and result accumulator through the recursive
visitor `f`. -/
def topoChildren (f : Nat → List Nat → List Nat → Option (Except Err (List Nat × List Nat))) :
    List Nat → List Nat → List Nat → Option (Except Err (List Nat × List Nat))
  | [], visited, result => some (.ok (visited, result))
  | j :: js, visited, result =>
    match f j visited result with
    | none => none
    | some (.error e) => some (.error e)
    | some (.ok (v, r)) => topoChildren f js v r

/-- The `dfs` helper of `Graph::topological_sort`: visited set and result
accumulator threaded through, children of an operation first, each node
visited at most once. -/
def topoDfs (g : Graph α) :
    Nat → Nat → List Nat → List Nat → Option (Except Err (List Nat × List Nat))
  | 0 => fun _ _ _ => none
  | fuel + 1 => fun i visited result =>
    if i ∈ visited then some (.ok (visited, result))
    else
      match g.nodes[i]? with
      | none => some (.error (.indexError "node index out of bounds"))
      | some (.operation _ idxs) =>
        match topoChildren (topoDfs g fuel) idxs (i :: visited) result with
        | none => none
        | some (.error e) => some (.error e)
        | some (.ok (v, r)) => some (.ok (v, r ++ [i]))
      | some _ => some (.ok (i :: visited, result ++ [i]))

/-- `Graph::topological_sort`. -/
def topological_sort (g : Graph α) (fuel start : Nat) : Option (Except Err (List Nat)) :=
  match topoDfs g fuel start [] [] with
  | none => none
  | some (.error e) => some (.error e)
  | some (.ok (_, r)) => some (.ok r)

/-- The gradient-accumulation loop of `Graph::backward` (the
`entry().and_modify().or_insert()` walk over one operation's input/gradient
pairs): inputs that do not require a gradient are skipped; an existing
entry accumulates via `Tensor::add`, whose failure is a panic
(`.expect("gradient add")`), modelled as `none`. -/
def accumGrads (g : Graph α) : List (Nat × Tensor α) → Option (Graph α)
  | [] => some g
  | (inputIdx, inputGrad) :: rest =>
    if !g.node_requires_grad inputIdx then accumGrads g rest
    else
      match g.gradients.lookup inputIdx with
      | some existing =>
        match existing.add inputGrad with
        | .ok t => accumGrads { g with gradients := insertGrad g.gradients inputIdx t } rest
        | .error _ => none
      | none => accumGrads { g with gradients := insertGrad g.gradients inputIdx inputGrad } rest

/-- The reverse walk of `Graph::backward` over the topological order:
nodes without an accumulated gradient are skipped; operation nodes
re-evaluate their inputs, invoke the operation's backward, check the
gradient count, and accumulate. -/
def backwardLoop (tc : Transcend α) (fuel : Nat) :
    Graph α → List Nat → Option (Graph α × Except Err Unit)
  | g, [] => some (g, .ok ())
  | g, nodeIdx :: rest =>
    match g.gradients.lookup nodeIdx with
    | none => backwardLoop tc fuel g rest
    | some grad =>
      match g.nodes[nodeIdx]? with
      | none => some (g, .error (.indexError "node index out of bounds"))
      | some (.input _) => backwardLoop tc fuel g rest
      | some (.parameter _ _) => backwardLoop tc fuel g rest
      | some (.operation op idxs) =>
        match forwardList tc fuel g idxs with
        | none => none
        | some (.error e) => some (g, .error e)
        | some (.ok inputs) =>
          match opBackward tc op inputs grad with
          | .error e => some (g, .error e)
          | .ok inputGrads =>
            if inputGrads.length ≠ idxs.length then
              some (g, .error (.invalidOperation "op.backward returned wrong number of gradients"))
            else
              match accumGrads g (idxs.zip inputGrads) with
              | none => none
              | some g1 => backwardLoop tc fuel g1 rest

/-- `Graph::backward`: evaluate the output, seed its gradient with ones,
topologically sort, walk in reverse.  The result pairs the mutated graph
with the `Result`, so that partial mutations before an early `Err` are
observable exactly as through the source's `&mut self`; `none` stands for
divergence or a panic. -/
def backwardF (tc : Transcend α) (fuel : Nat) (g : Graph α) (outputIdx : Nat) :
    Option (Graph α × Except Err Unit) :=
  match forwardF tc g fuel outputIdx with
  | none => none
  | some (.error e) => some (g, .error e)
  | some (.ok out) =>
    match out.ones_like with
    | .error _ => none
    | .ok gradOut =>
      let g1 : Graph α := { g with gradients := insertGrad g.gradients outputIdx gradOut }
      match topological_sort g1 fuel outputIdx with
      | none => none
      | some (.error e) => some (g1, .error e)
      | some (.ok sorted) => backwardLoop tc fuel g1 sorted.reverse

/-- A sequence of `backward` calls (each with its own fuel); `none` if any
call fails to return normally. -/
def backwardSeq (tc : Transcend α) : List (Nat × Nat) → Graph α → Option (Graph α)
  | [], g => some g
  | (fuel, i) :: rest, g =>
    match backwardF tc fuel g i with
    | none => none
    | some (g1, _) => backwardSeq tc rest g1

/-! ## Specification-side definitions (written from the spec's words) -/

/-- The Tensor data-model invariant (spec §3): `len(data) == product(shape)`,
a non-empty shape, and row-major strides. -/
def Valid (t : Tensor α) : Prop :=
  t.data.length = t.shape.prod ∧ t.shape ≠ [] ∧ t.strides = compute_strides t.shape

/-- One aligned dimension pair is compatible when equal or one is `1`. -/
def eqOrOne (x y : Nat) : Prop := x = y ∨ x = 1 ∨ y = 1

instance (x y : Nat) : Decidable (eqOrOne x y) := by unfold eqOrOne; infer_instance

/-- Spec §4.1: two shapes are broadcast-compatible if, aligning trailing
dimensions, each dimension pair is equal or one of them is `1`.
(`s.reverse.getD k 1` is the `k`-th dimension from the right, `1` beyond
the rank.) -/
def BroadcastCompatible (a b : List Nat) : Prop :=
  ∀ k < max a.length b.length, eqOrOne (a.reverse.getD k 1) (b.reverse.getD k 1)

instance (a b : List Nat) : Decidable (BroadcastCompatible a b) := by
  unfold BroadcastCompatible; infer_instance

/-- One aligned dimension pair of the broadcast output: a size-1
dimension stretches to match the other. -/
def stretchDim (x y : Nat) : Nat := if x = 1 then y else x

/-- The broadcast output shape: right-aligned, size-1 dimensions
stretched. -/
def broadcastShapeSpec (a b : List Nat) : List Nat :=
  ((List.range (max a.length b.length)).map
    (fun k => stretchDim (a.reverse.getD k 1) (b.reverse.getD k 1))).reverse

/-- Aligned dimension of `a` at left-counted position `i` of the
broadcast result of rank `L`. -/
def alignedLeft (a : List Nat) (L i : Nat) : Nat :=
  a.reverse.getD (L - 1 - i) 1

/-- Spec §4.1: map an output coordinate into one operand's own coordinate
space — keep the trailing `s.length` coordinates, and size-1 operand
dimensions always map to index `0`. -/
def projectCoord (s c : List Nat) : List Nat :=
  List.zipWith (fun d ci => if d = 1 then 0 else ci) s (c.drop (c.length - s.length))

/-- Elementwise closeness of two `f32` values within a strict tolerance,
false whenever either side is NaN (mirroring the float comparison the
test-suite's `assert_close` performs). -/
def flCloseB (tol : α) : Fl α → Fl α → Bool
  | .val u, .val v => decide (|u - v| < tol)
  | _, _ => false

/-- "Equal to the original operand within elementwise tolerance": same
shape, same element count, all elements close. -/
def tensorApprox (tol : α) (t1 t2 : Tensor α) : Prop :=
  t1.shape = t2.shape ∧ t1.data.length = t2.data.length ∧
    ∀ i < t1.data.length, flCloseB tol (t1.data.getD i .nan) (t2.data.getD i .nan) = true

instance (tol : α) (t1 t2 : Tensor α) : Decidable (tensorApprox tol t1 t2) := by
  unfold tensorApprox; infer_instance

/-- A coordinate lies inside a shape: same rank, pointwise in bounds. -/
def InBounds (c shape : List Nat) : Prop :=
  c.length = shape.length ∧ ∀ k < c.length, c.getD k 0 < shape.getD k 0

instance (t : Tensor α) : Decidable (Valid t) := by
  unfold Valid; infer_instance

/-- Success behaviour claimed of an elementwise operation: the result `r`
is `Ok` of a tensor of the broadcast output shape (spec §4.1), valid,
whose element at each in-bounds output coordinate is `f` applied to the
operand elements found by projecting the output coordinate into each
operand's own coordinate space (size-1 dimensions mapping to index 0). -/
def EwOkSpec (t u : Tensor α) (f : Fl α → Fl α → Fl α)
    (r : Except Err (Tensor α)) : Prop :=
  ∃ out, r = .ok out ∧
    out.shape = broadcastShapeSpec t.shape u.shape ∧
    Valid out ∧
    ∀ c, InBounds c out.shape →
      out.data.getD (ravel_static c out.shape) .nan =
        f (t.data.getD (ravel_static (projectCoord t.shape c) t.shape) .nan)
          (u.data.getD (ravel_static (projectCoord u.shape c) u.shape) .nan)

/-- Failure behaviour claimed of an elementwise operation: the result `r`
is a broadcast error carrying the first offending (left-counted) aligned
dimension index and both aligned sizes at that index. -/
def EwErrSpec (t u : Tensor α) (r : Except Err (Tensor α)) : Prop :=
  ∃ j < max t.shape.length u.shape.length,
    (∀ k < j, eqOrOne (alignedLeft t.shape (max t.shape.length u.shape.length) k)
      (alignedLeft u.shape (max t.shape.length u.shape.length) k)) ∧
    ¬ eqOrOne (alignedLeft t.shape (max t.shape.length u.shape.length) j)
      (alignedLeft u.shape (max t.shape.length u.shape.length) j) ∧
    r = .error (.broadcastError j
      (alignedLeft t.shape (max t.shape.length u.shape.length) j)
      (alignedLeft u.shape (max t.shape.length u.shape.length) j))

/-- Whether node `i` is an `Input` node. -/
def Graph.isInputNode (g : Graph α) (i : Nat) : Bool :=
  match g.nodes[i]? with
  | some (.input _) => true
  | _ => false

/-- Spec §3: operation input indices always refer to previously-appended
nodes (strictly smaller indices). -/
def WellFormed (g : Graph α) : Prop :=
  ∀ (i : Nat) (op : OpKind) (idxs : List Nat),
    g.nodes[i]? = some (Node.operation op idxs) → ∀ j ∈ idxs, j < i

/-- All entries of a tensor's data are finite (non-NaN). -/
def Finite' (t : Tensor α) : Prop := ∀ v ∈ t.data, v ≠ Fl.nan

/-- The contract of `invert` error handling (spec §4.2 / §8), for an
operation of the given arity: each of the four malformed-argument
scenarios (checked in the source's order) produces the corresponding
error rather than a value. -/
def InvertErrSpec (arity : Nat)
    (inv : Tensor α → List (Option (Tensor α)) → Nat → Except Err (Tensor α)) : Prop :=
  ∀ output known solve_for,
    (known.length ≠ arity →
      inv output known solve_for = .error (.inputCountError arity known.length)) ∧
    (known.length = arity → arity ≤ solve_for →
      inv output known solve_for = .error (.indexError "solve_for out of bounds for arity")) ∧
    (known.length = arity → solve_for < arity → (known.getD solve_for none).isSome →
      inv output known solve_for = .error (.invalidOperation "known[solve_for] must be None")) ∧
    (known.length = arity → solve_for < arity → known.getD solve_for none = none →
      (∃ i, i < arity ∧ i ≠ solve_for ∧ known.getD i none = none) →
      inv output known solve_for =
        .error (.invalidOperation "known[i] must be Some (only solve_for may be None)"))

/-- A computable linearly ordered field scalar for concrete witnesses whose
evaluation involves scalar arithmetic (`ℚ`'s kernel arithmetic is opaque):
the two-element field with the `Fin 2` order. -/
instance : LinearOrder (ZMod 2) := inferInstanceAs (LinearOrder (Fin 2))

/-- Likewise the three-element field, when a nonzero `2` is needed. -/
instance : LinearOrder (ZMod 3) := inferInstanceAs (LinearOrder (Fin 3))

/-- The real-number instantiation of the transcendental primitives used by
`LogOp`: `exp` everywhere, `ln` on positive reals (nonpositive arguments
give NaN, conflating IEEE's `-inf` at zero with NaN — no claim touches
that point). -/
noncomputable def tcReal : Transcend ℝ :=
  ⟨fun v => match v with | .val x => .val (Real.exp x) | .nan => .nan,
   fun v => match v with
     | .val x => if 0 < x then .val (Real.log x) else .nan
     | .nan => .nan⟩

/-- The spec §3 invariant fields claimed by C6. -/
def TensorInv (t : Tensor α) : Prop :=
  t.data.length = t.shape.prod ∧ t.shape ≠ []

/-- The invariant "no Input node has a stored gradient". -/
def NoInputGrads (g : Graph α) : Prop :=
  ∀ j, g.isInputNode j = true → g.get_gradient j = none

/-! ## Lemmas: invert-argument validation -/

theorem validate_wrong_arity {known : List (Option (Tensor α))} {sf arity : Nat}
    (h : known.length ≠ arity) :
    validate_invert_args known sf arity = .error (.inputCountError arity known.length) := by
  simp [validate_invert_args, h]

theorem validate_sf_oob {known : List (Option (Tensor α))} {sf arity : Nat}
    (h1 : known.length = arity) (h2 : arity ≤ sf) :
    validate_invert_args known sf arity =
      .error (.indexError "solve_for out of bounds for arity") := by
  simp [validate_invert_args, h1, h2]

theorem validate_sf_some {known : List (Option (Tensor α))} {sf arity : Nat}
    (h1 : known.length = arity) (h2 : sf < arity) (h3 : (known.getD sf none).isSome) :
    validate_invert_args known sf arity =
      .error (.invalidOperation "known[solve_for] must be None") := by
  unfold validate_invert_args
  rw [if_neg (by simp [h1]), if_neg (by omega), if_pos h3]

theorem validate_missing_other {known : List (Option (Tensor α))} {sf arity : Nat}
    (h1 : known.length = arity) (h2 : sf < arity) (h3 : known.getD sf none = none)
    (h4 : ∃ i, i < arity ∧ i ≠ sf ∧ known.getD i none = none) :
    validate_invert_args known sf arity =
      .error (.invalidOperation "known[i] must be Some (only solve_for may be None)") := by
  obtain ⟨i, hi, hne, hnone⟩ := h4
  unfold validate_invert_args
  rw [if_neg (by simp [h1]), if_neg (by omega),
    if_neg (by simp only [List.getD_eq_getElem?_getD] at h3; simp [h3])]
  split
  · rfl
  next hf =>
    exfalso
    have hni := List.find?_eq_none.mp hf i (List.mem_range.mpr hi)
    simp only [List.getD_eq_getElem?_getD] at hnone
    simp [hne, hnone] at hni

theorem addInvert_err {output : Tensor α} {known sf e}
    (h : validate_invert_args known sf 2 = .error e) :
    AddOp.invert output known sf = .error e := by
  unfold AddOp.invert; rw [h]; rfl

theorem subInvert_err {output : Tensor α} {known sf e}
    (h : validate_invert_args known sf 2 = .error e) :
    SubtractOp.invert output known sf = .error e := by
  unfold SubtractOp.invert; rw [h]; rfl

theorem mulInvert_err {output : Tensor α} {known sf e}
    (h : validate_invert_args known sf 2 = .error e) :
    MultiplyOp.invert output known sf = .error e := by
  unfold MultiplyOp.invert; rw [h]; rfl

theorem divInvert_err {output : Tensor α} {known sf e}
    (h : validate_invert_args known sf 2 = .error e) :
    DivideOp.invert output known sf = .error e := by
  unfold DivideOp.invert; rw [h]; rfl

theorem logInvert_err {tc : Transcend α} {output : Tensor α} {known sf e}
    (h : validate_invert_args known sf 1 = .error e) :
    LogOp.invert tc output known sf = .error e := by
  unfold LogOp.invert; rw [h]; rfl

theorem invertErrSpec_of_validate (arity : Nat)
    (inv : Tensor α → List (Option (Tensor α)) → Nat → Except Err (Tensor α))
    (h : ∀ out known sf e, validate_invert_args known sf arity = .error e →
      inv out known sf = .error e) :
    InvertErrSpec arity inv := by
  intro output known sf
  refine ⟨fun h1 => ?_, fun h1 h2 => ?_, fun h1 h2 h3 => ?_, fun h1 h2 h3 h4 => ?_⟩
  · exact h _ _ _ _ (validate_wrong_arity h1)
  · exact h _ _ _ _ (validate_sf_oob h1 h2)
  · exact h _ _ _ _ (validate_sf_some h1 h2 h3)
  · exact h _ _ _ _ (validate_missing_other h1 h2 h3 h4)

/-- C5: for every invertible operation (Add, Subtract, Multiply, Divide,
Log), `invert` returns an error — never a successfully computed value — in
each malformed-argument case: wrong-arity `known` (input-count error),
out-of-range `solve_for` (index error), a present entry at `solve_for`, or
a missing entry elsewhere (invalid-operation errors). -/
theorem c5_invert_validation (tc : Transcend α) :
    InvertErrSpec 2 (AddOp.invert (α := α)) ∧
    InvertErrSpec 2 (SubtractOp.invert (α := α)) ∧
    InvertErrSpec 2 (MultiplyOp.invert (α := α)) ∧
    InvertErrSpec 2 (DivideOp.invert (α := α)) ∧
    InvertErrSpec 1 (LogOp.invert tc) :=
  ⟨invertErrSpec_of_validate 2 _ (fun _ _ _ _ => addInvert_err),
   invertErrSpec_of_validate 2 _ (fun _ _ _ _ => subInvert_err),
   invertErrSpec_of_validate 2 _ (fun _ _ _ _ => mulInvert_err),
   invertErrSpec_of_validate 2 _ (fun _ _ _ _ => divInvert_err),
   invertErrSpec_of_validate 1 _ (fun _ _ _ _ => logInvert_err)⟩

/-- Witness for C5 at concrete inputs over `ℚ`, one per scenario. -/
theorem c5_invert_validation_witness :
    (AddOp.invert (⟨[Fl.val 1], [1], [1]⟩ : Tensor ℚ) [none] 0
      = .error (.inputCountError 2 1)) ∧
    (SubtractOp.invert (⟨[Fl.val 1], [1], [1]⟩ : Tensor ℚ)
      [some ⟨[Fl.val 1], [1], [1]⟩, none] 5
      = .error (.indexError "solve_for out of bounds for arity")) ∧
    (MultiplyOp.invert (⟨[Fl.val 1], [1], [1]⟩ : Tensor ℚ)
      [some ⟨[Fl.val 1], [1], [1]⟩, some ⟨[Fl.val 1], [1], [1]⟩] 0
      = .error (.invalidOperation "known[solve_for] must be None")) ∧
    (DivideOp.invert (⟨[Fl.val 1], [1], [1]⟩ : Tensor ℚ) [none, none] 0
      = .error (.invalidOperation "known[i] must be Some (only solve_for may be None)")) ∧
    (LogOp.invert tcTriv (⟨[Fl.val 1], [1], [1]⟩ : Tensor ℚ) [some ⟨[Fl.val 1], [1], [1]⟩] 0
      = .error (.invalidOperation "known[solve_for] must be None")) := by
  have h := c5_invert_validation (α := ℚ) tcTriv
  exact ⟨(h.1 _ [none] 0).1 (by decide),
    (h.2.1 _ _ 5).2.1 (by decide) (by decide),
    (h.2.2.1 _ _ 0).2.2.1 (by decide) (by decide) (by decide),
    (h.2.2.2.1 _ _ 0).2.2.2 (by decide) (by decide) rfl ⟨1, by decide, by decide, rfl⟩,
    (h.2.2.2.2 _ _ 0).2.2.1 (by decide) (by decide) (by decide)⟩

/-! ## Lemmas: flat-index / coordinate round trips -/

theorem unravel_static_length (shape : List Nat) :
    ∀ rem, (unravel_static rem shape).length = shape.length := by
  induction shape with
  | nil => intro rem; rfl
  | cons s ss ih => intro rem; simp [unravel_static, ih]

theorem prod_pos_of_lt {shape : List Nat} {rem : Nat} (h : rem < shape.prod) :
    0 < shape.prod := Nat.pos_of_ne_zero (fun h0 => by omega)

theorem ravelChecked_unravel (shape : List Nat) :
    ∀ rem, rem < shape.prod → ravelChecked (unravel_static rem shape) shape = .ok rem := by
  induction shape with
  | nil =>
    intro rem h
    simp only [List.prod_nil, Nat.lt_one_iff] at h
    subst h; rfl
  | cons s ss ih =>
    intro rem h
    rw [List.prod_cons] at h
    have hP : 0 < ss.prod := by
      rcases Nat.eq_zero_or_pos ss.prod with h0 | h0
      · rw [h0, Nat.mul_zero] at h; omega
      · exact h0
    have hdiv : rem / ss.prod < s := (Nat.div_lt_iff_lt_mul hP).mpr h
    simp only [unravel_static, ravelChecked]
    rw [if_neg (by omega)]
    rw [ih (rem % ss.prod) (Nat.mod_lt _ hP)]
    show Except.ok (rem / ss.prod * ss.prod + rem % ss.prod) = Except.ok rem
    rw [Nat.div_add_mod']

theorem ravelChecked_ok (shape : List Nat) :
    ∀ idx, idx.length = shape.length →
      (∀ k < idx.length, idx.getD k 0 < shape.getD k 0) →
      ravelChecked idx shape = .ok (ravel_static idx shape) := by
  induction shape with
  | nil =>
    intro idx hlen _
    rw [List.length_nil, List.length_eq_zero] at hlen
    subst hlen; rfl
  | cons s ss ih =>
    intro idx hlen hb
    match idx with
    | i :: is_ =>
      have h0 : i < s := by have := hb 0 (by simp); simpa using this
      have htail : ∀ k < is_.length, is_.getD k 0 < ss.getD k 0 := by
        intro k hk
        have := hb (k + 1) (by simp; omega)
        simpa using this
      simp only [ravelChecked]
      rw [if_neg (by omega)]
      rw [ih is_ (by simpa using hlen) htail]
      show Except.ok _ = Except.ok _
      simp [ravel_static, compute_strides]

theorem ravel_static_lt (shape : List Nat) :
    ∀ idx, idx.length = shape.length →
      (∀ k < idx.length, idx.getD k 0 < shape.getD k 0) →
      ravel_static idx shape < shape.prod := by
  induction shape with
  | nil =>
    intro idx hlen _
    rw [List.length_nil, List.length_eq_zero] at hlen
    subst hlen
    simp [ravel_static, compute_strides]
  | cons s ss ih =>
    intro idx hlen hb
    match idx with
    | i :: is_ =>
      have h0 : i < s := by have := hb 0 (by simp); simpa using this
      have htail : ∀ k < is_.length, is_.getD k 0 < ss.getD k 0 := by
        intro k hk
        have := hb (k + 1) (by simp; omega)
        simpa using this
      have hrec := ih is_ (by simpa using hlen) htail
      simp only [ravel_static, compute_strides, List.zipWith_cons_cons, List.sum_cons,
        List.prod_cons]
      calc i * ss.prod + (List.zipWith (· * ·) is_ (compute_strides ss)).sum
          < i * ss.prod + ss.prod := by
            have : (List.zipWith (· * ·) is_ (compute_strides ss)).sum < ss.prod := hrec
            omega
        _ = (i + 1) * ss.prod := by ring
        _ ≤ s * ss.prod := Nat.mul_le_mul_right _ (by omega)

theorem unravel_ravel (shape : List Nat) :
    ∀ idx, idx.length = shape.length →
      (∀ k < idx.length, idx.getD k 0 < shape.getD k 0) →
      unravel_static (ravel_static idx shape) shape = idx := by
  induction shape with
  | nil =>
    intro idx hlen _
    rw [List.length_nil, List.length_eq_zero] at hlen
    subst hlen; rfl
  | cons s ss ih =>
    intro idx hlen hb
    match idx with
    | i :: is_ =>
      have h0 : i < s := by have := hb 0 (by simp); simpa using this
      have htail : ∀ k < is_.length, is_.getD k 0 < ss.getD k 0 := by
        intro k hk
        have := hb (k + 1) (by simp; omega)
        simpa using this
      have hP : 0 < ss.prod := by
        have := ravel_static_lt ss is_ (by simpa using hlen) htail
        exact prod_pos_of_lt this
      have hR : ravel_static is_ ss < ss.prod :=
        ravel_static_lt ss is_ (by simpa using hlen) htail
      have hhead : ravel_static (i :: is_) (s :: ss) = i * ss.prod + ravel_static is_ ss := by
        simp [ravel_static, compute_strides]
      rw [hhead]
      simp only [unravel_static]
      have hcomm : i * ss.prod + ravel_static is_ ss = ss.prod * i + ravel_static is_ ss := by
        ring
      rw [hcomm, Nat.mul_add_div hP, Nat.mul_add_mod, Nat.div_eq_of_lt hR,
        Nat.mod_eq_of_lt hR, Nat.add_zero]
      rw [ih is_ (by simpa using hlen) htail]

/-- C7: flat-offset/coordinate round trips.  For every non-empty shape and
every in-range flat offset, `ravel_index (unravel_index flat shape) shape`
returns `Ok flat`; and for every coordinate vector pointwise inside the
shape, `unravel_index (ravel_index idx shape) shape` returns `Ok idx`. -/
theorem c7_index_round_trip :
    (∀ (shape : List Nat) (flat : Nat), shape ≠ [] → flat < shape.prod →
      (unravel_index flat shape).bind (fun idx => ravel_index idx shape) = .ok flat) ∧
    (∀ (idx shape : List Nat), idx.length = shape.length →
      (∀ k < idx.length, idx.getD k 0 < shape.getD k 0) →
      (ravel_index idx shape).bind (fun f => unravel_index f shape) = .ok idx) := by
  constructor
  · intro shape flat hne hflat
    have hu : unravel_index flat shape = .ok (unravel_static flat shape) := by
      unfold unravel_index
      rw [if_neg (by omega)]
    rw [hu]
    show ravel_index (unravel_static flat shape) shape = .ok flat
    unfold ravel_index
    rw [if_neg (by simp [unravel_static_length])]
    exact ravelChecked_unravel shape flat hflat
  · intro idx shape hlen hb
    have hr : ravel_index idx shape = .ok (ravel_static idx shape) := by
      unfold ravel_index
      rw [if_neg (by omega)]
      exact ravelChecked_ok shape idx hlen hb
    rw [hr]
    show unravel_index (ravel_static idx shape) shape = .ok idx
    unfold unravel_index
    rw [if_neg (by have := ravel_static_lt shape idx hlen hb; omega)]
    rw [unravel_ravel shape idx hlen hb]

/-- Witness for C7: shape `[2,3]`, flat offset `4`, coordinate `[1,1]`. -/
theorem c7_index_round_trip_witness :
    ((4 : Nat) < ([2, 3] : List Nat).prod ∧
      (unravel_index 4 [2, 3]).bind (fun idx => ravel_index idx [2, 3]) = .ok 4) ∧
    ((∀ k < ([1, 1] : List Nat).length, ([1, 1] : List Nat).getD k 0 < ([2, 3] : List Nat).getD k 0) ∧
      (ravel_index [1, 1] [2, 3]).bind (fun f => unravel_index f [2, 3]) = .ok [1, 1]) :=
  ⟨⟨by decide, c7_index_round_trip.1 [2, 3] 4 (by decide) (by decide)⟩,
   ⟨by decide, c7_index_round_trip.2 [1, 1] [2, 3] (by decide) (by decide)⟩⟩

/-! ## Lemmas: the Tensor construction invariant -/

theorem except_bind_ok {ε A B : Type} (a : A) (f : A → Except ε B) :
    (Except.ok a >>= f) = f a := rfl

theorem except_bind_error {ε A B : Type} (e : ε) (f : A → Except ε B) :
    ((Except.error e : Except ε A) >>= f) = Except.error e := rfl

theorem new_ok_elim {data : List (Fl α)} {shape : List Nat} {t : Tensor α}
    (h : Tensor.new data shape = .ok t) :
    t.data = data ∧ t.shape = shape ∧ t.strides = compute_strides shape ∧
      shape ≠ [] ∧ data.length = shape.prod := by
  simp only [Tensor.new] at h
  split at h
  · exact Except.noConfusion h
  next hne =>
    split at h
    · exact Except.noConfusion h
    next hlen =>
      cases h
      exact ⟨rfl, rfl, rfl, hne, by omega⟩

theorem valid_of_new {data : List (Fl α)} {shape : List Nat} {t : Tensor α}
    (h : Tensor.new data shape = .ok t) : Valid t := by
  obtain ⟨h1, h2, h3, h4, h5⟩ := new_ok_elim h
  exact ⟨by rw [h1, h2, h5], by rw [h2]; exact h4, by rw [h3, h2]⟩

theorem inv_of_new {data : List (Fl α)} {shape : List Nat} {t : Tensor α}
    (h : Tensor.new data shape = .ok t) : TensorInv t := by
  obtain ⟨h1, h2, _, h4, h5⟩ := new_ok_elim h
  exact ⟨by rw [h1, h2, h5], by rw [h2]; exact h4⟩

theorem ewData_length (t other : Tensor α) (f : Fl α → Fl α → Fl α) (outShape : List Nat) :
    ∀ n first l, ewData t other f outShape first n = .ok l → l.length = n := by
  intro n
  induction n with
  | zero => intro first l h; cases h; rfl
  | succ n ih =>
    intro first l h
    simp only [ewData] at h
    cases haf : t.broadcasted_flat_index (unravel_static first outShape) outShape with
    | error e =>
      simp only [haf, except_bind_error] at h
      exact Except.noConfusion h
    | ok aFlat =>
      cases hbf : other.broadcasted_flat_index (unravel_static first outShape) outShape with
      | error e =>
        simp only [haf, hbf, except_bind_ok, except_bind_error] at h
        exact Except.noConfusion h
      | ok bFlat =>
        cases hrest : ewData t other f outShape (first + 1) n with
        | error e =>
          simp only [haf, hbf, hrest, except_bind_ok, except_bind_error] at h
          exact Except.noConfusion h
        | ok rest =>
          simp only [haf, hbf, hrest, except_bind_ok] at h
          cases h
          simp [ih (first + 1) rest hrest]

theorem ew_ok_elim {t other r : Tensor α} {f : Fl α → Fl α → Fl α}
    (h : t.elementwise_op other f = .ok r) :
    ∃ outShape d, broadcast_shapes t.shape other.shape = .ok outShape ∧
      r.shape = outShape ∧ r.strides = compute_strides outShape ∧
      r.data = d ∧ d.length = outShape.prod ∧ outShape ≠ [] ∧
      ewData t other f outShape 0 outShape.prod = .ok d := by
  simp only [Tensor.elementwise_op] at h
  cases hbs : broadcast_shapes t.shape other.shape with
  | error e =>
    simp only [hbs, except_bind_error] at h
    exact Except.noConfusion h
  | ok outShape =>
    simp only [hbs, except_bind_ok] at h
    cases hz : Tensor.zeros (α := α) outShape with
    | error e =>
      simp only [hz, except_bind_error] at h
      exact Except.noConfusion h
    | ok out =>
      simp only [hz, except_bind_ok] at h
      obtain ⟨hzd, hzs, hzst, hzne, hzlen⟩ := new_ok_elim hz
      have hlen0 : out.data.length = outShape.prod := by
        rw [hzd]; exact List.length_replicate _ _
      cases hd : ewData t other f outShape 0 out.data.length with
      | error e =>
        simp only [hd, except_bind_error] at h
        exact Except.noConfusion h
      | ok d =>
        simp only [hd, except_bind_ok] at h
        cases h
        refine ⟨outShape, d, rfl, hzs, by rw [hzst], rfl,
          ?_, hzne, by rw [hlen0] at hd; exact hd⟩
        have := ewData_length t other f outShape out.data.length 0 d hd
        omega

theorem ew_ok_inv {t other r : Tensor α} {f : Fl α → Fl α → Fl α}
    (h : t.elementwise_op other f = .ok r) : TensorInv r := by
  obtain ⟨outShape, d, _, hs, _, hd, hdl, hne, _⟩ := ew_ok_elim h
  exact ⟨by rw [hd, hs, hdl], by rw [hs]; exact hne⟩

theorem ew_ok_valid {t other r : Tensor α} {f : Fl α → Fl α → Fl α}
    (h : t.elementwise_op other f = .ok r) : Valid r := by
  obtain ⟨outShape, d, _, hs, hst, hd, hdl, hne, _⟩ := ew_ok_elim h
  exact ⟨by rw [hd, hs, hdl], by rw [hs]; exact hne, by rw [hst, hs]⟩

theorem matmul_ok_inv {a b t : Tensor α} (h : a.matmul b = .ok t) : TensorInv t := by
  simp only [Tensor.matmul] at h
  split at h
  · exact Except.noConfusion h
  · split at h
    · exact Except.noConfusion h
    · exact inv_of_new h

theorem transpose_ok_inv {a t : Tensor α} (h : a.transpose_2d = .ok t) : TensorInv t := by
  simp only [Tensor.transpose_2d] at h
  split at h
  · exact Except.noConfusion h
  · exact inv_of_new h

theorem sum_ok_inv {a t : Tensor α} {d : Option Nat} (h : a.sum d = .ok t) : TensorInv t := by
  cases d with
  | none => exact inv_of_new h
  | some axis =>
    simp only [Tensor.sum] at h
    split at h
    · exact Except.noConfusion h
    · exact inv_of_new h

/-- C6: every tensor produced by a public constructor (`new`, `zeros`,
`ones`, `zeros_like`, `ones_like`, `random`) or a tensor operation
(`add`, `subtract`, `multiply`, `divide`, `matmul`, `transpose_2d`,
`relu`, `sum`) satisfies `len(data) = product(shape)` with a non-empty
shape; `Tensor::new` rejects an empty shape with a dimension error and a
length mismatch with a shape-mismatch error, so no violating tensor is
ever constructed. -/
theorem c6_tensor_invariant :
    (∀ (data : List (Fl α)) (shape : List Nat) (t : Tensor α),
      Tensor.new data shape = .ok t → TensorInv t) ∧
    (∀ (data : List (Fl α)), Tensor.new data ([] : List Nat) =
      .error (.dimensionError "shape must have at least 1 dimension")) ∧
    (∀ (data : List (Fl α)) (shape : List Nat), shape ≠ [] → data.length ≠ shape.prod →
      Tensor.new data shape = .error (.shapeMismatch shape.prod data.length)) ∧
    (∀ (shape : List Nat) (t : Tensor α), Tensor.zeros shape = .ok t → TensorInv t) ∧
    (∀ (shape : List Nat) (t : Tensor α), Tensor.ones shape = .ok t → TensorInv t) ∧
    (∀ (o t : Tensor α), Tensor.zeros_like o = .ok t → TensorInv t) ∧
    (∀ (o t : Tensor α), Tensor.ones_like o = .ok t → TensorInv t) ∧
    (∀ (shape : List Nat) (seed : Nat) (t : Tensor α),
      Tensor.random shape seed = .ok t → TensorInv t) ∧
    (∀ (a b t : Tensor α), a.add b = .ok t → TensorInv t) ∧
    (∀ (a b t : Tensor α), a.subtract b = .ok t → TensorInv t) ∧
    (∀ (a b t : Tensor α), a.multiply b = .ok t → TensorInv t) ∧
    (∀ (a b t : Tensor α), a.divide b = .ok t → TensorInv t) ∧
    (∀ (a b t : Tensor α), a.matmul b = .ok t → TensorInv t) ∧
    (∀ (a t : Tensor α), a.transpose_2d = .ok t → TensorInv t) ∧
    (∀ (a t : Tensor α), a.relu = .ok t → TensorInv t) ∧
    (∀ (a t : Tensor α) (d : Option Nat), a.sum d = .ok t → TensorInv t) := by
  refine ⟨fun _ _ _ h => inv_of_new h,
    fun data => by simp [Tensor.new],
    fun data shape h1 h2 => ?_,
    fun _ _ h => inv_of_new h,
    fun _ _ h => inv_of_new h,
    fun _ _ h => inv_of_new h,
    fun _ _ h => inv_of_new h,
    fun _ _ _ h => inv_of_new h,
    fun _ _ _ h => ew_ok_inv h,
    fun _ _ _ h => ew_ok_inv h,
    fun _ _ _ h => ew_ok_inv h,
    fun _ _ _ h => ew_ok_inv h,
    fun _ _ _ h => matmul_ok_inv h,
    fun _ _ h => transpose_ok_inv h,
    fun _ _ h => inv_of_new h,
    fun _ _ _ h => sum_ok_inv h⟩
  simp only [Tensor.new]
  rw [if_neg h1, if_pos h2]

/-- Witness for C6 over `ℚ`: the invariant-bearing conjuncts applied at
concrete tensors, and both `Tensor::new` error cases at concrete inputs. -/
theorem c6_tensor_invariant_witness :
    TensorInv (⟨[Fl.val 1, Fl.val 2], [2], [1]⟩ : Tensor ℚ) ∧
    Tensor.new ([Fl.val 1] : List (Fl ℚ)) [] =
      .error (.dimensionError "shape must have at least 1 dimension") ∧
    Tensor.new ([Fl.val 1] : List (Fl ℚ)) [2] = .error (.shapeMismatch 2 1) := by
  have h := c6_tensor_invariant (α := ℚ)
  refine ⟨h.1 [Fl.val 1, Fl.val 2] [2] _ rfl, h.2.1 [Fl.val 1],
    h.2.2.1 [Fl.val 1] [2] (by decide) (by decide)⟩

/-! ## Lemmas: backward touches only the gradient map -/

theorem accumGrads_nodes :
    ∀ (l : List (Nat × Tensor α)) (g g' : Graph α),
      accumGrads g l = some g' → g'.nodes = g.nodes := by
  intro l
  induction l with
  | nil => intro g g' h; cases h; rfl
  | cons p rest ih =>
    intro g g' h
    obtain ⟨inputIdx, inputGrad⟩ := p
    simp only [accumGrads] at h
    split at h
    · exact ih g g' h
    · cases hl : g.gradients.lookup inputIdx with
      | some existing =>
        simp only [hl] at h
        cases hadd : existing.add inputGrad with
        | ok t2 =>
          simp only [hadd] at h
          have := ih _ _ h
          simpa using this
        | error e => simp only [hadd] at h; exact Option.noConfusion h
      | none =>
        simp only [hl] at h
        have := ih _ _ h
        simpa using this

theorem backwardLoop_nodes (tc : Transcend α) (fuel : Nat) :
    ∀ (order : List Nat) (g g' : Graph α) (r : Except Err Unit),
      backwardLoop tc fuel g order = some (g', r) → g'.nodes = g.nodes := by
  intro order
  induction order with
  | nil => intro g g' r h; cases h; rfl
  | cons nodeIdx rest ih =>
    intro g g' r h
    simp only [backwardLoop] at h
    cases hl : g.gradients.lookup nodeIdx with
    | none => simp only [hl] at h; exact ih g g' r h
    | some grad =>
      cases hn : g.nodes[nodeIdx]? with
      | none => simp only [hl, hn] at h; cases h; rfl
      | some node =>
        cases node with
        | input t => simp only [hl, hn] at h; exact ih g g' r h
        | parameter t rg => simp only [hl, hn] at h; exact ih g g' r h
        | operation op idxs =>
          cases hfl : forwardList tc fuel g idxs with
          | none => simp only [hl, hn, hfl] at h; exact Option.noConfusion h
          | some res =>
            cases res with
            | error e => simp only [hl, hn, hfl] at h; cases h; rfl
            | ok inputs =>
              cases hob : opBackward tc op inputs grad with
              | error e => simp only [hl, hn, hfl, hob] at h; cases h; rfl
              | ok inputGrads =>
                simp only [hl, hn, hfl, hob] at h
                split at h
                · cases h; rfl
                · cases hac : accumGrads g (idxs.zip inputGrads) with
                  | none => simp only [hac] at h; exact Option.noConfusion h
                  | some g1 =>
                    simp only [hac] at h
                    rw [ih g1 g' r h]
                    exact accumGrads_nodes _ g g1 hac

theorem backwardF_nodes (tc : Transcend α) (fuel : Nat) (g : Graph α) (i : Nat)
    (g' : Graph α) (r : Except Err Unit)
    (h : backwardF tc fuel g i = some (g', r)) : g'.nodes = g.nodes := by
  unfold backwardF at h
  cases hf : forwardF tc g fuel i with
  | none => rw [hf] at h; exact Option.noConfusion h
  | some res =>
    cases res with
    | error e => simp only [hf] at h; cases h; rfl
    | ok out =>
      cases ho : out.ones_like with
      | error e => simp only [hf, ho] at h; exact Option.noConfusion h
      | ok gradOut =>
        cases ht : topological_sort
            { g with gradients := insertGrad g.gradients i gradOut } fuel i with
        | none => simp only [hf, ho, ht] at h; exact Option.noConfusion h
        | some tres =>
          cases tres with
          | error e => simp only [hf, ho, ht] at h; cases h; rfl
          | ok sorted =>
            simp only [hf, ho, ht] at h
            exact backwardLoop_nodes tc fuel sorted.reverse
              { g with gradients := insertGrad g.gradients i gradOut } g' r h

/-- C10: `Graph::backward` mutates only the gradient map — whenever the
call returns (`Ok` or `Err`), the node arena of the resulting graph is
unchanged: no node is added or removed and every node's stored tensor,
`requires_grad` flag, operation and input-index list are intact. -/
theorem c10_backward_frame (tc : Transcend α) (fuel : Nat) (g : Graph α)
    (outputIdx : Nat) (g' : Graph α) (r : Except Err Unit)
    (h : backwardF tc fuel g outputIdx = some (g', r)) :
    g'.nodes = g.nodes :=
  backwardF_nodes tc fuel g outputIdx g' r h

/-- Witness for C10: a one-input graph, `backward` on node 0. -/
theorem c10_backward_frame_witness :
    backwardF tcTriv 1 (⟨[Node.input ⟨[Fl.val 1], [1], [1]⟩], []⟩ : Graph ℚ) 0 =
      some (⟨[Node.input ⟨[Fl.val 1], [1], [1]⟩], [(0, ⟨[Fl.val 1], [1], [1]⟩)]⟩, .ok ()) ∧
    (⟨[Node.input ⟨[Fl.val 1], [1], [1]⟩],
        [(0, ⟨[Fl.val 1], [1], [1]⟩)]⟩ : Graph ℚ).nodes =
      (⟨[Node.input ⟨[Fl.val 1], [1], [1]⟩], []⟩ : Graph ℚ).nodes :=
  ⟨by decide, c10_backward_frame tcTriv 1 _ 0 _ (.ok ()) (by decide)⟩

/-! ## Lemmas: forward evaluation is total on well-formed graphs -/

theorem collectF_congr {A : Type} (f1 f2 : Nat → Option (Except Err A)) :
    ∀ idxs, (∀ j ∈ idxs, f1 j = f2 j) → collectF f1 idxs = collectF f2 idxs := by
  intro idxs
  induction idxs with
  | nil => intro _; rfl
  | cons j js ih =>
    intro h
    have hj := h j (by simp)
    have hrest := ih (fun k hk => h k (by simp [hk]))
    simp only [collectF, hj, hrest]

theorem collectF_isSome {A : Type} (f : Nat → Option (Except Err A)) :
    ∀ idxs, (∀ j ∈ idxs, (f j).isSome) → (collectF f idxs).isSome := by
  intro idxs
  induction idxs with
  | nil => intro _; simp [collectF]
  | cons j js ih =>
    intro h
    have hj := h j (by simp)
    cases hf : f j with
    | none => rw [hf] at hj; exact absurd hj (by simp)
    | some res =>
      cases res with
      | error e => simp [collectF, hf]
      | ok t =>
        have hrest := ih (fun k hk => h k (by simp [hk]))
        cases hc : collectF f js with
        | none => rw [hc] at hrest; exact absurd hrest (by simp)
        | some res2 => cases res2 <;> simp [collectF, hf, hc]

theorem forward_stable (tc : Transcend α) (g : Graph α) (hwf : WellFormed g) :
    ∀ i fuel : Nat, i < fuel →
      forwardF tc g fuel i = forwardF tc g (i + 1) i ∧
        (forwardF tc g (i + 1) i).isSome := by
  intro i
  induction i using Nat.strong_induction_on with
  | _ i ih =>
    intro fuel hfuel
    obtain ⟨f, rfl⟩ : ∃ f, fuel = f + 1 := ⟨fuel - 1, by omega⟩
    cases hn : g.nodes[i]? with
    | none => constructor <;> simp [forwardF, hn]
    | some node =>
      cases node with
      | input t => constructor <;> simp [forwardF, hn]
      | parameter t rg => constructor <;> simp [forwardF, hn]
      | operation op idxs =>
        have hchild : ∀ j ∈ idxs, j < i := hwf i op idxs hn
        have hcong : ∀ j ∈ idxs, forwardF tc g f j = forwardF tc g i j := by
          intro j hj
          have hji : j < i := hchild j hj
          have h1 := (ih j hji f (by omega)).1
          have h2 := (ih j hji i hji).1
          rw [h1, h2]
        have hsome : ∀ j ∈ idxs, (forwardF tc g i j).isSome := by
          intro j hj
          have hji : j < i := hchild j hj
          rw [(ih j hji i hji).1]
          exact (ih j hji i hji).2
        constructor
        · simp only [forwardF, hn]
          rw [collectF_congr _ _ idxs hcong]
        · have hc := collectF_isSome (forwardF tc g i) idxs hsome
          cases hcv : collectF (forwardF tc g i) idxs with
          | none => rw [hcv] at hc; exact absurd hc (by simp)
          | some res => cases res <;> simp [forwardF, hn, hcv]

/-- C9: on every graph whose operation nodes reference only strictly
smaller node indices, `Graph::forward` terminates on every node index — the
fueled evaluation returns a result (never runs out) once the fuel exceeds
the node index, and the result does not depend on the fuel, i.e. `forward`
is a total function of the graph and index. -/
theorem c9_forward_terminates (tc : Transcend α) (g : Graph α) (hwf : WellFormed g)
    (node_id : Nat) :
    (forwardF tc g (node_id + 1) node_id).isSome ∧
      ∀ fuel, node_id < fuel →
        forwardF tc g fuel node_id = forwardF tc g (node_id + 1) node_id :=
  ⟨(forward_stable tc g hwf node_id (node_id + 1) (by omega)).2,
   fun fuel h => (forward_stable tc g hwf node_id fuel h).1⟩

/-- Witness for C9: a parameter feeding an `Add` node that uses it twice. -/
theorem c9_forward_terminates_witness :
    (forwardF tcTriv
      (⟨[Node.parameter ⟨[Fl.val 1], [1], [1]⟩ true, Node.operation .add [0, 0]], []⟩ : Graph ℚ)
      2 1).isSome ∧
    forwardF tcTriv
      (⟨[Node.parameter ⟨[Fl.val 1], [1], [1]⟩ true, Node.operation .add [0, 0]], []⟩ : Graph ℚ)
      7 1 =
    forwardF tcTriv
      (⟨[Node.parameter ⟨[Fl.val 1], [1], [1]⟩ true, Node.operation .add [0, 0]], []⟩ : Graph ℚ)
      2 1 := by
  have hwf : WellFormed
      (⟨[Node.parameter ⟨[Fl.val 1], [1], [1]⟩ true, Node.operation .add [0, 0]], []⟩ : Graph ℚ) := by
    intro i op idxs h j hj
    match i with
    | 0 => simp at h
    | 1 =>
      simp only [List.getElem?_cons_succ, List.getElem?_cons_zero, Option.some.injEq] at h
      cases h
      simp at hj
      omega
    | n + 2 => simp at h
  have h := c9_forward_terminates tcTriv _ hwf 1
  exact ⟨h.1, h.2 7 (by omega)⟩

/-! ## Lemmas: Input nodes and gradient accumulation -/

theorem isInput_congr {g g' : Graph α} (h : g'.nodes = g.nodes) (j : Nat) :
    g'.isInputNode j = g.isInputNode j := by
  simp [Graph.isInputNode, h]

theorem input_not_requires_grad {g : Graph α} {j : Nat}
    (h : g.isInputNode j = true) : g.node_requires_grad j = false := by
  unfold Graph.isInputNode at h
  unfold Graph.node_requires_grad
  cases hn : g.nodes[j]? with
  | none => rfl
  | some node => cases node <;> simp [hn] at h ⊢

theorem lookup_insert_ne {m : List (Nat × Tensor α)} {k j : Nat} {v : Tensor α}
    (h : j ≠ k) : (insertGrad m k v).lookup j = m.lookup j := by
  have hb : (j == k) = false := by simpa using h
  simp [insertGrad, List.lookup, hb]

theorem accumGrads_noInput :
    ∀ (l : List (Nat × Tensor α)) (g g' : Graph α), accumGrads g l = some g' →
      NoInputGrads g → NoInputGrads g' := by
  intro l
  induction l with
  | nil => intro g g' h hinv; cases h; exact hinv
  | cons p rest ih =>
    intro g g' h hinv
    obtain ⟨inputIdx, inputGrad⟩ := p
    simp only [accumGrads] at h
    split at h
    · exact ih g g' h hinv
    next hrg =>
      have hrg' : g.node_requires_grad inputIdx = true := by
        simpa using hrg
      have hne : ∀ j, g.isInputNode j = true → j ≠ inputIdx := by
        intro j hj he
        subst he
        rw [input_not_requires_grad hj] at hrg'
        exact Bool.noConfusion hrg'
      have hstep : ∀ v : Tensor α,
          NoInputGrads { g with gradients := insertGrad g.gradients inputIdx v } := by
        intro v j hj
        have hj' : g.isInputNode j = true := by rwa [isInput_congr rfl] at hj
        show (insertGrad g.gradients inputIdx v).lookup j = none
        rw [lookup_insert_ne (hne j hj')]
        exact hinv j hj'
      cases hl : g.gradients.lookup inputIdx with
      | some existing =>
        simp only [hl] at h
        cases hadd : existing.add inputGrad with
        | ok t2 =>
          simp only [hadd] at h
          exact ih _ _ h (hstep t2)
        | error e => simp only [hadd] at h; exact Option.noConfusion h
      | none =>
        simp only [hl] at h
        exact ih _ _ h (hstep inputGrad)

theorem backwardLoop_noInput (tc : Transcend α) (fuel : Nat) :
    ∀ (order : List Nat) (g g' : Graph α) (r : Except Err Unit),
      backwardLoop tc fuel g order = some (g', r) →
      NoInputGrads g → NoInputGrads g' := by
  intro order
  induction order with
  | nil => intro g g' r h hinv; cases h; exact hinv
  | cons nodeIdx rest ih =>
    intro g g' r h hinv
    simp only [backwardLoop] at h
    cases hl : g.gradients.lookup nodeIdx with
    | none => simp only [hl] at h; exact ih g g' r h hinv
    | some grad =>
      cases hn : g.nodes[nodeIdx]? with
      | none => simp only [hl, hn] at h; cases h; exact hinv
      | some node =>
        cases node with
        | input t => simp only [hl, hn] at h; exact ih g g' r h hinv
        | parameter t rg => simp only [hl, hn] at h; exact ih g g' r h hinv
        | operation op idxs =>
          cases hfl : forwardList tc fuel g idxs with
          | none => simp only [hl, hn, hfl] at h; exact Option.noConfusion h
          | some res =>
            cases res with
            | error e => simp only [hl, hn, hfl] at h; cases h; exact hinv
            | ok inputs =>
              cases hob : opBackward tc op inputs grad with
              | error e => simp only [hl, hn, hfl, hob] at h; cases h; exact hinv
              | ok inputGrads =>
                simp only [hl, hn, hfl, hob] at h
                split at h
                · cases h; exact hinv
                · cases hac : accumGrads g (idxs.zip inputGrads) with
                  | none => simp only [hac] at h; exact Option.noConfusion h
                  | some g1 =>
                    simp only [hac] at h
                    exact ih g1 g' r h (accumGrads_noInput _ g g1 hac hinv)

theorem backwardF_noInput (tc : Transcend α) (fuel : Nat) (g : Graph α) (i : Nat)
    (g' : Graph α) (r : Except Err Unit)
    (hni : g.isInputNode i = false) (hinv : NoInputGrads g)
    (h : backwardF tc fuel g i = some (g', r)) : NoInputGrads g' := by
  unfold backwardF at h
  cases hf : forwardF tc g fuel i with
  | none => rw [hf] at h; exact Option.noConfusion h
  | some res =>
    cases res with
    | error e => simp only [hf] at h; cases h; exact hinv
    | ok out =>
      cases ho : out.ones_like with
      | error e => simp only [hf, ho] at h; exact Option.noConfusion h
      | ok gradOut =>
        have hinv1 : NoInputGrads { g with gradients := insertGrad g.gradients i gradOut } := by
          intro j hj
          have hj' : g.isInputNode j = true := by rwa [isInput_congr rfl] at hj
          have hne : j ≠ i := by
            intro he
            rw [he, hni] at hj'
            exact Bool.noConfusion hj'
          show (insertGrad g.gradients i gradOut).lookup j = none
          rw [lookup_insert_ne hne]
          exact hinv j hj'
        cases ht : topological_sort
            { g with gradients := insertGrad g.gradients i gradOut } fuel i with
        | none => simp only [hf, ho, ht] at h; exact Option.noConfusion h
        | some tres =>
          cases tres with
          | error e => simp only [hf, ho, ht] at h; cases h; exact hinv1
          | ok sorted =>
            simp only [hf, ho, ht] at h
            exact backwardLoop_noInput tc fuel sorted.reverse _ g' r h hinv1

/-- C3 (amended): for every graph whose Input nodes carry no gradient and
every sequence of `backward` calls none of which targets an Input node
itself, every Input node's `get_gradient` is still `None` afterwards.
(The original claim fails when `backward` is called on an Input node: the
seed `gradients.insert(output_idx, ones)` is unconditional.) -/
theorem c3_input_nodes_no_gradient (tc : Transcend α) :
    ∀ (calls : List (Nat × Nat)) (g g' : Graph α),
      NoInputGrads g →
      (∀ p ∈ calls, g.isInputNode p.2 = false) →
      backwardSeq tc calls g = some g' →
      ∀ j, g'.isInputNode j = true → g'.get_gradient j = none := by
  intro calls
  induction calls with
  | nil =>
    intro g g' hinv hcalls h
    cases h
    exact hinv
  | cons c rest ih =>
    intro g g' hinv hcalls h
    obtain ⟨fuel, i⟩ := c
    simp only [backwardSeq] at h
    cases hb : backwardF tc fuel g i with
    | none => rw [hb] at h; exact Option.noConfusion h
    | some pr =>
      obtain ⟨g1, r⟩ := pr
      rw [hb] at h
      have hframe := backwardF_nodes tc fuel g i g1 r hb
      have hinv1 : NoInputGrads g1 :=
        backwardF_noInput tc fuel g i g1 r (hcalls (fuel, i) (by simp)) hinv hb
      have hcalls1 : ∀ p ∈ rest, g1.isInputNode p.2 = false := by
        intro p hp
        rw [isInput_congr hframe]
        exact hcalls p (by simp [hp])
      exact ih g1 g' hinv1 hcalls1 h

/-- C3 counterexample: calling `backward` on an Input node itself stores a
gradient for it — `get_gradient` returns `Some(ones)` afterwards, so the
claim "Input nodes never receive a gradient, for every sequence of
backward calls including on an Input node itself" is false on the code. -/
theorem c3_input_gradient_counterexample :
    (⟨[Node.input ⟨[Fl.val 2], [1], [1]⟩], []⟩ : Graph ℚ).isInputNode 0 = true ∧
    backwardSeq tcTriv [(1, 0)] (⟨[Node.input ⟨[Fl.val 2], [1], [1]⟩], []⟩ : Graph ℚ) =
      some ⟨[Node.input ⟨[Fl.val 2], [1], [1]⟩], [(0, ⟨[Fl.val 1], [1], [1]⟩)]⟩ ∧
    (⟨[Node.input ⟨[Fl.val 2], [1], [1]⟩],
        [(0, ⟨[Fl.val 1], [1], [1]⟩)]⟩ : Graph ℚ).get_gradient 0 ≠ none := by
  refine ⟨rfl, by decide, by decide⟩

/-- Witness for the amended C3: a graph with an Input node, a parameter
and an Add node using the parameter twice; one `backward` call on the Add
node leaves the Input node's gradient `None`. -/
theorem c3_input_nodes_no_gradient_witness :
    (⟨[Node.input ⟨[Fl.val 1], [1], [1]⟩, Node.parameter ⟨[Fl.val 1], [1], [1]⟩ true,
        Node.operation .add [1, 1]],
        [(1, ⟨[Fl.val 0], [1], [1]⟩), (1, ⟨[Fl.val 1], [1], [1]⟩),
          (2, ⟨[Fl.val 1], [1], [1]⟩)]⟩ : Graph (ZMod 2)).isInputNode 0 = true ∧
    (⟨[Node.input ⟨[Fl.val 1], [1], [1]⟩, Node.parameter ⟨[Fl.val 1], [1], [1]⟩ true,
        Node.operation .add [1, 1]],
        [(1, ⟨[Fl.val 0], [1], [1]⟩), (1, ⟨[Fl.val 1], [1], [1]⟩),
          (2, ⟨[Fl.val 1], [1], [1]⟩)]⟩ : Graph (ZMod 2)).get_gradient 0 = none := by
  have h := c3_input_nodes_no_gradient (α := ZMod 2) tcTriv [(2, 2)]
    ⟨[Node.input ⟨[Fl.val 1], [1], [1]⟩, Node.parameter ⟨[Fl.val 1], [1], [1]⟩ true,
      Node.operation .add [1, 1]], []⟩
    ⟨[Node.input ⟨[Fl.val 1], [1], [1]⟩, Node.parameter ⟨[Fl.val 1], [1], [1]⟩ true,
      Node.operation .add [1, 1]],
      [(1, ⟨[Fl.val 0], [1], [1]⟩), (1, ⟨[Fl.val 1], [1], [1]⟩),
        (2, ⟨[Fl.val 1], [1], [1]⟩)]⟩
  refine ⟨by decide, h ?_ ?_ (by decide) 0 (by decide)⟩
  · intro j hj
    match j with
    | 0 => rfl
    | 1 => simp [Graph.isInputNode] at hj
    | 2 => simp [Graph.isInputNode] at hj
    | n + 3 => simp [Graph.isInputNode] at hj
  · intro p hp
    simp only [List.mem_singleton] at hp
    subst hp
    rfl

/-! ## Lemmas: elementwise operations on equal shapes -/

theorem compute_strides_length (s : List Nat) : (compute_strides s).length = s.length := by
  induction s with
  | nil => rfl
  | cons d ss ih => simp [compute_strides, ih]

theorem unravel_bounds (shape : List Nat) :
    ∀ rem, rem < shape.prod →
      ∀ k < shape.length, (unravel_static rem shape).getD k 0 < shape.getD k 0 := by
  induction shape with
  | nil => intro rem h k hk; simp at hk
  | cons s ss ih =>
    intro rem h k hk
    rw [List.prod_cons] at h
    have hP : 0 < ss.prod := by
      rcases Nat.eq_zero_or_pos ss.prod with h0 | h0
      · rw [h0, Nat.mul_zero] at h; omega
      · exact h0
    cases k with
    | zero =>
      simpa [unravel_static] using (Nat.div_lt_iff_lt_mul hP).mpr h
    | succ k =>
      have := ih (rem % ss.prod) (Nat.mod_lt _ hP) k (by simpa using hk)
      simpa [unravel_static] using this

theorem ravel_unravel (shape : List Nat) :
    ∀ rem, rem < shape.prod → ravel_static (unravel_static rem shape) shape = rem := by
  induction shape with
  | nil =>
    intro rem h
    simp only [List.prod_nil, Nat.lt_one_iff] at h
    subst h; rfl
  | cons s ss ih =>
    intro rem h
    rw [List.prod_cons] at h
    have hP : 0 < ss.prod := by
      rcases Nat.eq_zero_or_pos ss.prod with h0 | h0
      · rw [h0, Nat.mul_zero] at h; omega
      · exact h0
    simp only [unravel_static, ravel_static, compute_strides, List.zipWith_cons_cons,
      List.sum_cons]
    have := ih (rem % ss.prod) (Nat.mod_lt _ hP)
    simp only [ravel_static] at this
    rw [this, Nat.div_add_mod']

theorem padOnes_self (s : List Nat) : padOnes s.length s = s := by
  simp [padOnes]

theorem padZeros_strides (s : List Nat) :
    padZeros s.length (compute_strides s) = compute_strides s := by
  simp [padZeros, compute_strides_length]

theorem bcastZip_refl (s : List Nat) : ∀ i, bcastZip i s s = .ok s := by
  induction s with
  | nil => intro i; rfl
  | cons d ss ih =>
    intro i
    simp only [bcastZip, bcastDim, if_pos rfl, except_bind_ok, ih (i + 1)]
    rfl

theorem broadcast_shapes_self (s : List Nat) : broadcast_shapes s s = .ok s := by
  unfold broadcast_shapes
  simp only [Nat.max_self]
  rw [padOnes_self]
  exact bcastZip_refl s 0

theorem bfiGo_same (s : List Nat) :
    ∀ c, c.length = s.length → (∀ k < c.length, c.getD k 0 < s.getD k 0) →
      bfiGo c s (compute_strides s) = .ok (ravel_static c s) := by
  induction s with
  | nil =>
    intro c hlen _
    rw [List.length_nil, List.length_eq_zero] at hlen
    subst hlen; rfl
  | cons d ss ih =>
    intro c hlen hb
    match c with
    | ci :: cs =>
      have h0 : ci < d := by have := hb 0 (by simp); simpa using this
      have htail : ∀ k < cs.length, cs.getD k 0 < ss.getD k 0 := by
        intro k hk
        have := hb (k + 1) (by simp; omega)
        simpa using this
      have hidx : (if d = 1 then 0 else ci) = ci := by
        split
        next hd => omega
        next => rfl
      simp only [compute_strides, bfiGo, hidx]
      rw [if_neg (by omega)]
      rw [ih cs (by simpa using hlen) htail]
      simp [ravel_static, compute_strides, except_bind_ok]

theorem bfi_same {t : Tensor α} {s : List Nat} (hs : t.shape = s)
    (hst : t.strides = compute_strides s) :
    ∀ c, c.length = s.length → (∀ k < c.length, c.getD k 0 < s.getD k 0) →
      t.broadcasted_flat_index c s = .ok (ravel_static c s) := by
  intro c hlen hb
  unfold Tensor.broadcasted_flat_index
  rw [if_neg (by omega), hs, hst]
  rw [padOnes_self, padZeros_strides]
  exact bfiGo_same s c hlen hb

theorem ewData_same {t u : Tensor α} {s : List Nat}
    (hs1 : t.shape = s) (hst1 : t.strides = compute_strides s)
    (hs2 : u.shape = s) (hst2 : u.strides = compute_strides s)
    (f : Fl α → Fl α → Fl α) :
    ∀ n k, k + n ≤ s.prod →
      ewData t u f s k n =
        .ok ((List.range' k n).map
          (fun i => f (t.data.getD i .nan) (u.data.getD i .nan))) := by
  intro n
  induction n with
  | zero => intro k h; rfl
  | succ n ih =>
    intro k h
    have hk : k < s.prod := by omega
    have hlen : (unravel_static k s).length = s.length := unravel_static_length s k
    have hbnd : ∀ j < (unravel_static k s).length,
        (unravel_static k s).getD j 0 < s.getD j 0 := by
      intro j hj
      exact unravel_bounds s k hk j (by omega)
    have hb1 := bfi_same hs1 hst1 (unravel_static k s) hlen hbnd
    have hb2 := bfi_same hs2 hst2 (unravel_static k s) hlen hbnd
    simp only [ewData, hb1, hb2, except_bind_ok, ravel_unravel s k hk,
      ih (k + 1) (by omega)]
    rw [List.range'_succ]
    rfl

/-- Elementwise operations on two valid tensors of the same shape succeed
and apply `f` positionwise. -/
theorem elementwise_same_shape {t u : Tensor α} (f : Fl α → Fl α → Fl α)
    (hv1 : Valid t) (hv2 : Valid u) (hsh : u.shape = t.shape) :
    t.elementwise_op u f =
      .ok ⟨(List.range t.shape.prod).map
            (fun i => f (t.data.getD i .nan) (u.data.getD i .nan)),
           t.shape, compute_strides t.shape⟩ := by
  obtain ⟨hl1, hne1, hst1⟩ := hv1
  obtain ⟨hl2, hne2, hst2⟩ := hv2
  unfold Tensor.elementwise_op
  rw [hsh, broadcast_shapes_self, except_bind_ok]
  have hz : Tensor.zeros (α := α) t.shape =
      .ok ⟨List.replicate t.shape.prod (Fl.val 0), t.shape, compute_strides t.shape⟩ := by
    unfold Tensor.zeros Tensor.new
    rw [if_neg (by simpa using hne1), if_neg (by simp)]
  rw [hz, except_bind_ok]
  have hew := ewData_same (t := t) (u := u) (s := t.shape) rfl hst1 hsh
    (by rw [hsh] at hst2; exact hst2) f t.shape.prod 0 (by omega)
  simp only [List.length_replicate, hew, except_bind_ok]
  rw [List.range_eq_range']

/-! ## Lemmas: gradient accumulation through a shared Add input -/

theorem getD_replicate_lt {A : Type} {n i : Nat} {x d : A} (h : i < n) :
    (List.replicate n x).getD i d = x := by
  rw [List.getD_eq_getElem?_getD, List.getElem?_replicate, if_pos h]
  rfl

theorem ones_add_ones {s : List Nat} (hne : s ≠ []) :
    (⟨List.replicate s.prod (Fl.val 1), s, compute_strides s⟩ : Tensor α).add
      ⟨List.replicate s.prod (Fl.val 1), s, compute_strides s⟩ =
    .ok ⟨List.replicate s.prod (Fl.val 2), s, compute_strides s⟩ := by
  unfold Tensor.add
  have h := elementwise_same_shape (α := α)
    (t := ⟨List.replicate s.prod (Fl.val 1), s, compute_strides s⟩)
    (u := ⟨List.replicate s.prod (Fl.val 1), s, compute_strides s⟩)
    Fl.add ⟨by simp, hne, rfl⟩ ⟨by simp, hne, rfl⟩ rfl
  simp only at h
  rw [h]
  have hmap : (List.range s.prod).map
      (fun i => Fl.add ((List.replicate s.prod (Fl.val (1 : α))).getD i Fl.nan)
        ((List.replicate s.prod (Fl.val 1)).getD i Fl.nan)) =
      List.replicate s.prod (Fl.val 2) := by
    refine List.eq_replicate_iff.mpr ⟨by simp, ?_⟩
    intro b hb
    simp only [List.mem_map, List.mem_range] at hb
    obtain ⟨i, hi, hbe⟩ := hb
    rw [← hbe, getD_replicate_lt hi]
    simp only [Fl.add, Fl.val.injEq]
    norm_num
  rw [hmap]

/-- C1: in any graph containing a trainable parameter node `p` and an Add
node `a` whose inputs are `[p, p]`, a single `backward(a)` call from a
clean gradient map stores, for `p`, the elementwise sum of the two
backward contributions: the tensor of `p`'s shape filled with `2.0` — not
just the last contribution. -/
theorem c1_gradient_accumulation (tc : Transcend α) (g : Graph α) (p a : Nat) (t : Tensor α)
    (fuel : Nat) (hfuel : 2 ≤ fuel)
    (hp : g.nodes[p]? = some (Node.parameter t true))
    (ha : g.nodes[a]? = some (Node.operation .add [p, p]))
    (hg : g.gradients = [])
    (hv : Valid t) :
    ∃ g', backwardF tc fuel g a = some (g', .ok ()) ∧
      g'.get_gradient p =
        some ⟨List.replicate t.shape.prod (Fl.val 2), t.shape, compute_strides t.shape⟩ := by
  obtain ⟨k, rfl⟩ : ∃ k, fuel = k + 2 := ⟨fuel - 2, by omega⟩
  obtain ⟨hlen, hne, hstr⟩ := hv
  have hpa : p ≠ a := by
    intro he
    rw [he, ha] at hp
    simp at hp
  have hba : (p == a) = false := by simpa using hpa
  have hfp : ∀ (L : List (Nat × Tensor α)) (m : Nat),
      forwardF tc { g with gradients := L } (m + 1) p = some (.ok t) := by
    intro L m
    simp [forwardF, hp]
  have hfp0 : ∀ (m : Nat), forwardF tc g (m + 1) p = some (.ok t) := by
    intro m
    simp [forwardF, hp]
  have haddT : t.add t = .ok ⟨(List.range t.shape.prod).map
      (fun i => Fl.add (t.data.getD i .nan) (t.data.getD i .nan)),
      t.shape, compute_strides t.shape⟩ :=
    elementwise_same_shape Fl.add ⟨hlen, hne, hstr⟩ ⟨hlen, hne, hstr⟩ rfl
  have hfa : forwardF tc g (k + 2) a = some (.ok ⟨(List.range t.shape.prod).map
      (fun i => Fl.add (t.data.getD i .nan) (t.data.getD i .nan)),
      t.shape, compute_strides t.shape⟩) := by
    simp only [forwardF, ha, hp, collectF, opForward, hfp0]
    rw [haddT]
  have hones : ∀ (d : List (Fl α)),
      Tensor.ones_like (⟨d, t.shape, compute_strides t.shape⟩ : Tensor α) =
        .ok ⟨List.replicate t.shape.prod (Fl.val 1), t.shape, compute_strides t.shape⟩ := by
    intro d
    unfold Tensor.ones_like Tensor.ones Tensor.new
    rw [if_neg (by simpa using hne), if_neg (by simp)]
  have htopo : topological_sort
      { g with gradients := [(a, ⟨List.replicate t.shape.prod (Fl.val 1), t.shape,
          compute_strides t.shape⟩)] } (k + 2) a = some (.ok [p, a]) := by
    unfold topological_sort
    simp only [topoDfs, topoChildren, ha, hp, List.not_mem_nil, List.mem_singleton,
      List.mem_cons, if_neg hpa, List.nil_append]
    simp [hpa]
  refine ⟨{ g with gradients :=
    [(p, ⟨List.replicate t.shape.prod (Fl.val 2), t.shape, compute_strides t.shape⟩),
     (p, ⟨List.replicate t.shape.prod (Fl.val 1), t.shape, compute_strides t.shape⟩),
     (a, ⟨List.replicate t.shape.prod (Fl.val 1), t.shape, compute_strides t.shape⟩)] },
    ?_, ?_⟩
  · unfold backwardF
    simp only [hfa, hones, hg, insertGrad, htopo]
    simp only [List.reverse_cons, List.reverse_nil, List.nil_append, List.cons_append,
      List.singleton_append]
    simp only [backwardLoop, List.lookup, beq_self_eq_true, hba, ha, hp, forwardList,
      collectF, hfp, opBackward, Graph.node_requires_grad, accumGrads, insertGrad,
      List.zip_cons_cons, List.zip_nil_left, Bool.not_true, Bool.false_eq_true, if_false,
      ones_add_ones hne, List.length_cons, List.length_nil]
    simp
  · simp [Graph.get_gradient, List.lookup]

/-- Witness for C1: parameter at node 0, `Add` node 1 with inputs `[0,0]`;
after `backward(1)`, node 0's gradient is `[2.0]`. -/
theorem c1_gradient_accumulation_witness :
    ∃ g', backwardF tcTriv 2
        (⟨[Node.parameter ⟨[Fl.val 1], [1], [1]⟩ true, Node.operation .add [0, 0]],
          []⟩ : Graph ℚ) 1 = some (g', .ok ()) ∧
      g'.get_gradient 0 = some ⟨[Fl.val 2], [1], [1]⟩ :=
  c1_gradient_accumulation tcTriv _ 0 1 ⟨[Fl.val 1], [1], [1]⟩ 2 (by omega) rfl rfl rfl
    ⟨by decide, by decide, by decide⟩

/-! ## Lemmas: algebraic inversion round trips -/

theorem getD_map_range {A : Type} (gf : Nat → A) {n i : Nat} (d : A) (h : i < n) :
    ((List.range n).map gf).getD i d = gf i := by
  rw [List.getD_eq_getElem?_getD, List.getElem?_map, List.getElem?_range h]
  rfl

theorem getD_mem_of_lt {A : Type} {l : List A} {i : Nat} {d : A} (h : i < l.length) :
    l.getD i d ∈ l := by
  rw [List.getD_eq_getElem?_getD, List.getElem?_eq_getElem h]
  exact List.getElem_mem h

theorem tensorApprox_of_pointwise {r orig : Tensor α} {tol : α} (htol : 0 < tol)
    (hs : r.shape = orig.shape) (hlen : r.data.length = orig.data.length)
    (hpt : ∀ i < orig.data.length, r.data.getD i .nan = orig.data.getD i .nan)
    (hfin : Finite' orig) : tensorApprox tol r orig := by
  refine ⟨hs, hlen, ?_⟩
  intro i hi
  rw [hlen] at hi
  rw [hpt i hi]
  cases hv : orig.data.getD i Fl.nan with
  | nan =>
    exfalso
    have hmem : orig.data.getD i Fl.nan ∈ orig.data := getD_mem_of_lt (d := Fl.nan) hi
    rw [hv] at hmem
    exact hfin _ hmem rfl
  | val x =>
    have habs : |(0 : α)| = 0 := by
      simp [abs, neg_zero]
    simp only [flCloseB, decide_eq_true_eq, sub_self, habs]
    exact htol

theorem validate_sf0_pair (b : Tensor α) :
    validate_invert_args [none, some b] 0 2 = .ok () := by
  simp [validate_invert_args, List.find?, List.range_succ]

theorem validate_sf1_pair (a : Tensor α) :
    validate_invert_args [some a, none] 1 2 = .ok () := by
  simp [validate_invert_args, List.find?, List.range_succ]

theorem validate_unary :
    validate_invert_args (α := α) [none] 0 1 = .ok () := by
  simp [validate_invert_args, List.find?, List.range_succ]

/-- C2 counterexample: the claim as stated quantifies over all operand
pairs restricting only Divide's divisor, but Multiply's inversion divides
by the known operand: with `a = [2.0]`, `b = [0.0]`, `solve_for = 0`, the
forward output is `[0.0]` and `invert` returns `[NaN]`, which is not
within tolerance `1e-5` of `[2.0]`. -/
theorem c2_round_trip_counterexample :
    opForward (tcTriv : Transcend ℝ) .multiply
        [⟨[Fl.val 2], [1], [1]⟩, ⟨[Fl.val 0], [1], [1]⟩] = .ok ⟨[Fl.val 0], [1], [1]⟩ ∧
    MultiplyOp.invert (⟨[Fl.val 0], [1], [1]⟩ : Tensor ℝ)
        [none, some ⟨[Fl.val 0], [1], [1]⟩] 0 = .ok ⟨[Fl.nan], [1], [1]⟩ ∧
    ¬ tensorApprox (1 / 100000 : ℝ) ⟨[Fl.nan], [1], [1]⟩ ⟨[Fl.val 2], [1], [1]⟩ := by
  refine ⟨?_, ?_, ?_⟩
  · show Tensor.multiply _ _ = _
    unfold Tensor.multiply
    rw [elementwise_same_shape (α := ℝ)
      (t := ⟨[Fl.val 2], [1], [1]⟩) (u := ⟨[Fl.val 0], [1], [1]⟩) Fl.mul
      ⟨by decide, by decide, by decide⟩ ⟨by decide, by decide, by decide⟩ rfl]
    norm_num [List.range_succ, List.range_zero, Fl.mul, compute_strides, List.getD]
  · unfold MultiplyOp.invert
    rw [validate_sf0_pair, except_bind_ok]
    show Tensor.divide _ _ = _
    unfold Tensor.divide
    rw [elementwise_same_shape (α := ℝ)
      (t := ⟨[Fl.val 0], [1], [1]⟩) (u := ⟨[Fl.val 0], [1], [1]⟩) Fl.divGuard
      ⟨by decide, by decide, by decide⟩ ⟨by decide, by decide, by decide⟩ rfl]
    norm_num [List.range_succ, List.range_zero, Fl.divGuard, compute_strides, List.getD]
  · rintro ⟨h1, h2, h3⟩
    have := h3 0 (by simp)
    simp [flCloseB] at this

theorem getD_val_of_finite {t : Tensor α} (hf : Finite' t) {i : Nat} (hi : i < t.data.length) :
    ∃ x, t.data.getD i .nan = Fl.val x := by
  cases hv : t.data.getD i .nan with
  | val x => exact ⟨x, rfl⟩
  | nan =>
    exfalso
    have hm := getD_mem_of_lt (d := Fl.nan) hi
    rw [hv] at hm
    exact hf _ hm rfl

/-- Composing two same-shape elementwise operations, second operand on the
right: if the composed value agrees pointwise with `orig`, the invert
round trip lands within tolerance of `orig`. -/
theorem approx_composed_left {a b w orig : Tensor α} {f g : Fl α → Fl α → Fl α}
    (hva : Valid a) (hvb : Valid b) (hsh : b.shape = a.shape)
    (hvw : Valid w) (hws : w.shape = a.shape)
    (hoe : orig.shape = a.shape) (hol : orig.data.length = a.shape.prod)
    (hfin : Finite' orig) (tol : α) (htol : 0 < tol)
    (hpt : ∀ i < a.shape.prod,
      g (f (a.data.getD i .nan) (b.data.getD i .nan)) (w.data.getD i .nan) =
        orig.data.getD i .nan) :
    ∃ out r, a.elementwise_op b f = .ok out ∧ out.elementwise_op w g = .ok r ∧
      tensorApprox tol r orig := by
  have hout := elementwise_same_shape f hva hvb hsh
  have hvo : Valid (⟨(List.range a.shape.prod).map
      (fun i => f (a.data.getD i .nan) (b.data.getD i .nan)),
      a.shape, compute_strides a.shape⟩ : Tensor α) := ⟨by simp, hva.2.1, rfl⟩
  have hinv := elementwise_same_shape g hvo hvw hws
  refine ⟨_, _, hout, hinv, ?_⟩
  refine tensorApprox_of_pointwise htol hoe.symm (by simp [hol]) ?_ hfin
  intro i hi
  have hip : i < a.shape.prod := hol ▸ hi
  simp only
  rw [getD_map_range _ Fl.nan hip, getD_map_range _ Fl.nan hip]
  exact hpt i hip

/-- As above, second operand on the left (`other op out`). -/
theorem approx_composed_right {a b w orig : Tensor α} {f g : Fl α → Fl α → Fl α}
    (hva : Valid a) (hvb : Valid b) (hsh : b.shape = a.shape)
    (hvw : Valid w) (hws : w.shape = a.shape)
    (hoe : orig.shape = a.shape) (hol : orig.data.length = a.shape.prod)
    (hfin : Finite' orig) (tol : α) (htol : 0 < tol)
    (hpt : ∀ i < a.shape.prod,
      g (w.data.getD i .nan) (f (a.data.getD i .nan) (b.data.getD i .nan)) =
        orig.data.getD i .nan) :
    ∃ out r, a.elementwise_op b f = .ok out ∧ w.elementwise_op out g = .ok r ∧
      tensorApprox tol r orig := by
  have hout := elementwise_same_shape f hva hvb hsh
  have hvo : Valid (⟨(List.range a.shape.prod).map
      (fun i => f (a.data.getD i .nan) (b.data.getD i .nan)),
      a.shape, compute_strides a.shape⟩ : Tensor α) := ⟨by simp, hva.2.1, rfl⟩
  have hinv := elementwise_same_shape g hvw hvo (by rw [hws])
  refine ⟨_, _, hout, hinv, ?_⟩
  have hpr : w.shape.prod = a.shape.prod := by rw [hws]
  refine tensorApprox_of_pointwise htol (by rw [hws, hoe]) (by simp [hol, hpr]) ?_ hfin
  intro i hi
  have hip : i < a.shape.prod := hol ▸ hi
  simp only
  rw [getD_map_range _ Fl.nan (hpr ▸ hip), getD_map_range _ Fl.nan hip]
  exact hpt i hip

/-- C2 (amended): for Add, Subtract, Multiply, Divide and Log on valid
rank-1/rank-2 operands of equal shape with finite entries, `invert` applied
to the forward output with the other operand known recovers the missing
operand within elementwise tolerance, for every `solve_for` position —
provided additionally that every entry used as a divisor during inversion
is nonzero (Multiply: the known operand; Divide: the divisor `b`, and also
the dividend `a` when solving for the divisor) and that Log's operand
entries are strictly positive (with `exp`/`ln` mutually inverse on
positives).  The original claim restricted only Divide's divisor; the
counterexample shows Multiply with a zero known operand yields NaN. -/
theorem c2_invert_round_trip (tc : Transcend α) (tol : α) (htol : 0 < tol)
    (hExpLn : ∀ x : α, 0 < x → tc.exp (tc.ln (Fl.val x)) = Fl.val x)
    (a b : Tensor α) (hva : Valid a) (hvb : Valid b) (hsh : b.shape = a.shape)
    (hrank : a.shape.length = 1 ∨ a.shape.length = 2)
    (hfa : Finite' a) (hfb : Finite' b) :
    (∃ out r, opForward tc .add [a, b] = .ok out ∧
      AddOp.invert out [none, some b] 0 = .ok r ∧ tensorApprox tol r a) ∧
    (∃ out r, opForward tc .add [a, b] = .ok out ∧
      AddOp.invert out [some a, none] 1 = .ok r ∧ tensorApprox tol r b) ∧
    (∃ out r, opForward tc .subtract [a, b] = .ok out ∧
      SubtractOp.invert out [none, some b] 0 = .ok r ∧ tensorApprox tol r a) ∧
    (∃ out r, opForward tc .subtract [a, b] = .ok out ∧
      SubtractOp.invert out [some a, none] 1 = .ok r ∧ tensorApprox tol r b) ∧
    ((∀ v ∈ b.data, v ≠ Fl.val 0) →
      ∃ out r, opForward tc .multiply [a, b] = .ok out ∧
        MultiplyOp.invert out [none, some b] 0 = .ok r ∧ tensorApprox tol r a) ∧
    ((∀ v ∈ a.data, v ≠ Fl.val 0) →
      ∃ out r, opForward tc .multiply [a, b] = .ok out ∧
        MultiplyOp.invert out [some a, none] 1 = .ok r ∧ tensorApprox tol r b) ∧
    ((∀ v ∈ b.data, v ≠ Fl.val 0) →
      ∃ out r, opForward tc .divide [a, b] = .ok out ∧
        DivideOp.invert out [none, some b] 0 = .ok r ∧ tensorApprox tol r a) ∧
    ((∀ v ∈ b.data, v ≠ Fl.val 0) → (∀ v ∈ a.data, v ≠ Fl.val 0) →
      ∃ out r, opForward tc .divide [a, b] = .ok out ∧
        DivideOp.invert out [some a, none] 1 = .ok r ∧ tensorApprox tol r b) ∧
    ((∀ v ∈ a.data, ∃ x, v = Fl.val x ∧ 0 < x) →
      ∃ out r, opForward tc .log [a] = .ok out ∧
        LogOp.invert tc out [none] 0 = .ok r ∧ tensorApprox tol r a) := by
  have hpa : a.data.length = a.shape.prod := hva.1
  have hpb : b.data.length = a.shape.prod := by rw [hvb.1, hsh]
  have hel : ∀ i, i < a.shape.prod →
      ∃ xa xb, a.data.getD i .nan = Fl.val xa ∧ b.data.getD i .nan = Fl.val xb := by
    intro i hi
    obtain ⟨xa, hxa⟩ := getD_val_of_finite hfa (hpa ▸ hi)
    obtain ⟨xb, hxb⟩ := getD_val_of_finite hfb (hpb ▸ hi)
    exact ⟨xa, xb, hxa, hxb⟩
  have hnz : ∀ {t : Tensor α}, (∀ v ∈ t.data, v ≠ Fl.val 0) → ∀ {i : Nat} {x : α},
      i < t.data.length → t.data.getD i .nan = Fl.val x → x ≠ 0 := by
    intro t h i x hi hx h0
    exact h _ (getD_mem_of_lt (d := Fl.nan) hi) (by rw [hx, h0])
  refine ⟨?_, ?_, ?_, ?_, fun hbz => ?_, fun haz => ?_, fun hbz => ?_,
    fun hbz haz => ?_, fun hpos => ?_⟩
  · -- Add, solve_for = 0
    have hpt : ∀ i < a.shape.prod,
        Fl.sub (Fl.add (a.data.getD i .nan) (b.data.getD i .nan)) (b.data.getD i .nan) =
          a.data.getD i .nan := by
      intro i hi
      obtain ⟨xa, xb, hxa, hxb⟩ := hel i hi
      rw [hxa, hxb]
      simp only [Fl.add, Fl.sub, Fl.val.injEq]
      ring
    obtain ⟨out, r, h1, h2, h3⟩ :=
      approx_composed_left hva hvb hsh hvb hsh rfl hpa hfa tol htol hpt
    exact ⟨out, r, h1,
      by unfold AddOp.invert; rw [validate_sf0_pair, except_bind_ok]; exact h2, h3⟩
  · -- Add, solve_for = 1
    have hpt : ∀ i < a.shape.prod,
        Fl.sub (Fl.add (a.data.getD i .nan) (b.data.getD i .nan)) (a.data.getD i .nan) =
          b.data.getD i .nan := by
      intro i hi
      obtain ⟨xa, xb, hxa, hxb⟩ := hel i hi
      rw [hxa, hxb]
      simp only [Fl.add, Fl.sub, Fl.val.injEq]
      ring
    obtain ⟨out, r, h1, h2, h3⟩ :=
      approx_composed_left hva hvb hsh hva rfl hsh hpb hfb tol htol hpt
    exact ⟨out, r, h1,
      by unfold AddOp.invert; rw [validate_sf1_pair, except_bind_ok]; exact h2, h3⟩
  · -- Subtract, solve_for = 0
    have hpt : ∀ i < a.shape.prod,
        Fl.add (Fl.sub (a.data.getD i .nan) (b.data.getD i .nan)) (b.data.getD i .nan) =
          a.data.getD i .nan := by
      intro i hi
      obtain ⟨xa, xb, hxa, hxb⟩ := hel i hi
      rw [hxa, hxb]
      simp only [Fl.add, Fl.sub, Fl.val.injEq]
      ring
    obtain ⟨out, r, h1, h2, h3⟩ :=
      approx_composed_left hva hvb hsh hvb hsh rfl hpa hfa tol htol hpt
    exact ⟨out, r, h1,
      by unfold SubtractOp.invert; rw [validate_sf0_pair, except_bind_ok]; exact h2, h3⟩
  · -- Subtract, solve_for = 1
    have hpt : ∀ i < a.shape.prod,
        Fl.sub (a.data.getD i .nan) (Fl.sub (a.data.getD i .nan) (b.data.getD i .nan)) =
          b.data.getD i .nan := by
      intro i hi
      obtain ⟨xa, xb, hxa, hxb⟩ := hel i hi
      rw [hxa, hxb]
      simp only [Fl.sub, Fl.val.injEq]
      ring
    obtain ⟨out, r, h1, h2, h3⟩ :=
      approx_composed_right hva hvb hsh hva rfl hsh hpb hfb tol htol hpt
    exact ⟨out, r, h1,
      by unfold SubtractOp.invert; rw [validate_sf1_pair, except_bind_ok]; exact h2, h3⟩
  · -- Multiply, solve_for = 0 (requires b's entries nonzero)
    have hpt : ∀ i < a.shape.prod,
        Fl.divGuard (Fl.mul (a.data.getD i .nan) (b.data.getD i .nan)) (b.data.getD i .nan) =
          a.data.getD i .nan := by
      intro i hi
      obtain ⟨xa, xb, hxa, hxb⟩ := hel i hi
      have hxb0 : xb ≠ 0 := hnz hbz (hpb ▸ hi) hxb
      rw [hxa, hxb]
      simp only [Fl.mul, Fl.divGuard, if_neg hxb0, Fl.val.injEq]
      field_simp
    obtain ⟨out, r, h1, h2, h3⟩ :=
      approx_composed_left hva hvb hsh hvb hsh rfl hpa hfa tol htol hpt
    exact ⟨out, r, h1,
      by unfold MultiplyOp.invert; rw [validate_sf0_pair, except_bind_ok]; exact h2, h3⟩
  · -- Multiply, solve_for = 1 (requires a's entries nonzero)
    have hpt : ∀ i < a.shape.prod,
        Fl.divGuard (Fl.mul (a.data.getD i .nan) (b.data.getD i .nan)) (a.data.getD i .nan) =
          b.data.getD i .nan := by
      intro i hi
      obtain ⟨xa, xb, hxa, hxb⟩ := hel i hi
      have hxa0 : xa ≠ 0 := hnz haz (hpa ▸ hi) hxa
      rw [hxa, hxb]
      simp only [Fl.mul, Fl.divGuard, if_neg hxa0, Fl.val.injEq]
      field_simp
    obtain ⟨out, r, h1, h2, h3⟩ :=
      approx_composed_left hva hvb hsh hva rfl hsh hpb hfb tol htol hpt
    exact ⟨out, r, h1,
      by unfold MultiplyOp.invert; rw [validate_sf1_pair, except_bind_ok]; exact h2, h3⟩
  · -- Divide, solve_for = 0 (requires the divisor's entries nonzero)
    have hpt : ∀ i < a.shape.prod,
        Fl.mul (Fl.divGuard (a.data.getD i .nan) (b.data.getD i .nan)) (b.data.getD i .nan) =
          a.data.getD i .nan := by
      intro i hi
      obtain ⟨xa, xb, hxa, hxb⟩ := hel i hi
      have hxb0 : xb ≠ 0 := hnz hbz (hpb ▸ hi) hxb
      rw [hxa, hxb]
      simp only [Fl.mul, Fl.divGuard, if_neg hxb0, Fl.val.injEq]
      field_simp
    obtain ⟨out, r, h1, h2, h3⟩ :=
      approx_composed_left hva hvb hsh hvb hsh rfl hpa hfa tol htol hpt
    exact ⟨out, r, h1,
      by unfold DivideOp.invert; rw [validate_sf0_pair, except_bind_ok]; exact h2, h3⟩
  · -- Divide, solve_for = 1 (divisor and dividend entries nonzero)
    have hpt : ∀ i < a.shape.prod,
        Fl.divGuard (a.data.getD i .nan)
          (Fl.divGuard (a.data.getD i .nan) (b.data.getD i .nan)) =
          b.data.getD i .nan := by
      intro i hi
      obtain ⟨xa, xb, hxa, hxb⟩ := hel i hi
      have hxa0 : xa ≠ 0 := hnz haz (hpa ▸ hi) hxa
      have hxb0 : xb ≠ 0 := hnz hbz (hpb ▸ hi) hxb
      have hq0 : xa / xb ≠ 0 := div_ne_zero hxa0 hxb0
      rw [hxa, hxb]
      simp only [Fl.divGuard, if_neg hxb0, if_neg hq0, Fl.val.injEq]
      field_simp
    obtain ⟨out, r, h1, h2, h3⟩ :=
      approx_composed_right hva hvb hsh hva rfl hsh hpb hfb tol htol hpt
    exact ⟨out, r, h1,
      by unfold DivideOp.invert; rw [validate_sf1_pair, except_bind_ok]; exact h2, h3⟩
  · -- Log (entries strictly positive)
    have hfaL : Finite' a := by
      intro v hv
      obtain ⟨x, hx, _⟩ := hpos v hv
      rw [hx]
      simp
    have hmap : a.data.map (tc.exp ∘ tc.ln) = a.data := by
      have hcong : ∀ v ∈ a.data, (tc.exp ∘ tc.ln) v = id v := by
        intro v hv
        obtain ⟨x, hx, hxp⟩ := hpos v hv
        rw [hx]
        exact hExpLn x hxp
      rw [List.map_congr_left hcong, List.map_id]
    have hfor : opForward tc .log [a] =
        .ok ⟨a.data.map tc.ln, a.shape, compute_strides a.shape⟩ := by
      show Tensor.new _ _ = _
      unfold Tensor.new
      rw [if_neg (by simpa using hva.2.1), if_neg (by simp [hva.1])]
    have hinv : LogOp.invert tc ⟨a.data.map tc.ln, a.shape, compute_strides a.shape⟩
        [none] 0 = .ok ⟨a.data, a.shape, compute_strides a.shape⟩ := by
      unfold LogOp.invert
      rw [validate_unary, except_bind_ok]
      show Tensor.new _ _ = _
      unfold Tensor.new
      rw [if_neg (by simpa using hva.2.1), if_neg (by simp [hva.1])]
      rw [List.map_map, hmap]
    refine ⟨_, _, hfor, hinv, ?_⟩
    exact tensorApprox_of_pointwise htol rfl rfl (fun i hi => rfl) hfaL

/-- Witness for the amended C2 over `ℝ` with the real `exp`/`ln`:
`a = [2.0]`, `b = [3.0]`, tolerance `1e-5`, all nine inversion cases. -/
theorem c2_invert_round_trip_witness :
    (∃ out r, opForward tcReal .add [⟨[Fl.val 2], [1], [1]⟩, ⟨[Fl.val 3], [1], [1]⟩] =
        .ok out ∧ AddOp.invert out [none, some ⟨[Fl.val 3], [1], [1]⟩] 0 = .ok r ∧
        tensorApprox (1 / 100000 : ℝ) r ⟨[Fl.val 2], [1], [1]⟩) ∧
    (∃ out r, opForward tcReal .add [⟨[Fl.val 2], [1], [1]⟩, ⟨[Fl.val 3], [1], [1]⟩] =
        .ok out ∧ AddOp.invert out [some ⟨[Fl.val 2], [1], [1]⟩, none] 1 = .ok r ∧
        tensorApprox (1 / 100000 : ℝ) r ⟨[Fl.val 3], [1], [1]⟩) ∧
    (∃ out r, opForward tcReal .subtract [⟨[Fl.val 2], [1], [1]⟩, ⟨[Fl.val 3], [1], [1]⟩] =
        .ok out ∧ SubtractOp.invert out [none, some ⟨[Fl.val 3], [1], [1]⟩] 0 = .ok r ∧
        tensorApprox (1 / 100000 : ℝ) r ⟨[Fl.val 2], [1], [1]⟩) ∧
    (∃ out r, opForward tcReal .subtract [⟨[Fl.val 2], [1], [1]⟩, ⟨[Fl.val 3], [1], [1]⟩] =
        .ok out ∧ SubtractOp.invert out [some ⟨[Fl.val 2], [1], [1]⟩, none] 1 = .ok r ∧
        tensorApprox (1 / 100000 : ℝ) r ⟨[Fl.val 3], [1], [1]⟩) ∧
    (∃ out r, opForward tcReal .multiply [⟨[Fl.val 2], [1], [1]⟩, ⟨[Fl.val 3], [1], [1]⟩] =
        .ok out ∧ MultiplyOp.invert out [none, some ⟨[Fl.val 3], [1], [1]⟩] 0 = .ok r ∧
        tensorApprox (1 / 100000 : ℝ) r ⟨[Fl.val 2], [1], [1]⟩) ∧
    (∃ out r, opForward tcReal .multiply [⟨[Fl.val 2], [1], [1]⟩, ⟨[Fl.val 3], [1], [1]⟩] =
        .ok out ∧ MultiplyOp.invert out [some ⟨[Fl.val 2], [1], [1]⟩, none] 1 = .ok r ∧
        tensorApprox (1 / 100000 : ℝ) r ⟨[Fl.val 3], [1], [1]⟩) ∧
    (∃ out r, opForward tcReal .divide [⟨[Fl.val 2], [1], [1]⟩, ⟨[Fl.val 3], [1], [1]⟩] =
        .ok out ∧ DivideOp.invert out [none, some ⟨[Fl.val 3], [1], [1]⟩] 0 = .ok r ∧
        tensorApprox (1 / 100000 : ℝ) r ⟨[Fl.val 2], [1], [1]⟩) ∧
    (∃ out r, opForward tcReal .divide [⟨[Fl.val 2], [1], [1]⟩, ⟨[Fl.val 3], [1], [1]⟩] =
        .ok out ∧ DivideOp.invert out [some ⟨[Fl.val 2], [1], [1]⟩, none] 1 = .ok r ∧
        tensorApprox (1 / 100000 : ℝ) r ⟨[Fl.val 3], [1], [1]⟩) ∧
    (∃ out r, opForward tcReal .log [⟨[Fl.val 2], [1], [1]⟩] = .ok out ∧
        LogOp.invert tcReal out [none] 0 = .ok r ∧
        tensorApprox (1 / 100000 : ℝ) r ⟨[Fl.val 2], [1], [1]⟩) := by
  have h := c2_invert_round_trip tcReal (1 / 100000 : ℝ) (by norm_num)
    (fun x hx => by simp [tcReal, hx, Real.exp_log hx])
    ⟨[Fl.val 2], [1], [1]⟩ ⟨[Fl.val 3], [1], [1]⟩
    ⟨by decide, by decide, by decide⟩ ⟨by decide, by decide, by decide⟩ rfl (Or.inl rfl)
    (by intro v hv; simp at hv; simp [hv]) (by intro v hv; simp at hv; simp [hv])
  have hb3 : ∀ v ∈ [Fl.val (3 : ℝ)], v ≠ Fl.val 0 := by
    intro v hv
    simp at hv
    simp [hv]
  have ha2 : ∀ v ∈ [Fl.val (2 : ℝ)], v ≠ Fl.val 0 := by
    intro v hv
    simp at hv
    simp [hv]
  have hpos2 : ∀ v ∈ [Fl.val (2 : ℝ)], ∃ x, v = Fl.val x ∧ 0 < x := by
    intro v hv
    simp at hv
    exact ⟨2, hv, by norm_num⟩
  exact ⟨h.1, h.2.1, h.2.2.1, h.2.2.2.1, h.2.2.2.2.1 hb3, h.2.2.2.2.2.1 ha2,
    h.2.2.2.2.2.2.1 hb3, h.2.2.2.2.2.2.2.1 hb3 ha2, h.2.2.2.2.2.2.2.2 hpos2⟩

/-! ## Lemmas: general broadcasting -/

theorem getD_of_le {A : Type} {l : List A} {k : Nat} {d : A} (h : l.length ≤ k) :
    l.getD k d = d := by
  rw [List.getD_eq_getElem?_getD, List.getElem?_eq_none h]
  rfl

theorem reverse_getD {A : Type} {l : List A} {k : Nat} (h : k < l.length) (d : A) :
    l.reverse.getD k d = l.getD (l.length - 1 - k) d := by
  rw [List.getD_eq_getElem?_getD, List.getD_eq_getElem?_getD,
    List.getElem?_reverse h]

theorem padOnes_length {n : Nat} {s : List Nat} (h : s.length ≤ n) :
    (padOnes n s).length = n := by
  simp [padOnes]
  omega

theorem padZeros_length {n : Nat} {s : List Nat} (h : s.length ≤ n) :
    (padZeros n s).length = n := by
  simp [padZeros]
  omega

theorem padOnes_getD {n : Nat} {s : List Nat} (hsl : s.length ≤ n) {i : Nat} (hi : i < n) :
    (padOnes n s).getD i 1 = s.reverse.getD (n - 1 - i) 1 := by
  unfold padOnes
  rcases Nat.lt_or_ge i (n - s.length) with hlt | hge
  · rw [List.getD_append _ _ _ _ (by simp; omega)]
    rw [getD_replicate_lt (by omega)]
    rw [getD_of_le (by simp; omega)]
  · rw [List.getD_append_right _ _ _ _ (by simp; omega)]
    have hk : n - 1 - i < s.length := by omega
    rw [reverse_getD hk]
    congr 1
    simp
    omega

theorem bcastDim_ok {x y : Nat} (h : eqOrOne x y) (i : Nat) :
    bcastDim i x y = .ok (stretchDim x y) := by
  unfold bcastDim stretchDim
  rcases h with h | h | h
  · subst h
    simp
  · subst h
    by_cases hy : 1 = y <;> simp [hy]
  · subst h
    by_cases hx : x = 1 <;> simp [hx]

theorem bcastDim_err {x y : Nat} (h : ¬ eqOrOne x y) (i : Nat) :
    bcastDim i x y = .error (.broadcastError i x y) := by
  unfold bcastDim
  unfold eqOrOne at h
  push_neg at h
  rw [if_neg h.1, if_neg h.2.1, if_neg h.2.2]

theorem bcastZip_ok :
    ∀ (xs ys : List Nat), xs.length = ys.length →
      (∀ k < xs.length, eqOrOne (xs.getD k 1) (ys.getD k 1)) →
      ∀ i, bcastZip i xs ys = .ok (List.zipWith stretchDim xs ys) := by
  intro xs
  induction xs with
  | nil =>
    intro ys hlen _ i
    rw [List.length_nil, eq_comm, List.length_eq_zero] at hlen
    subst hlen
    rfl
  | cons x xs' ih =>
    intro ys hlen hk i
    match ys with
    | y :: ys' =>
      have h0 : eqOrOne x y := by have := hk 0 (by simp); simpa using this
      have htail : ∀ k < xs'.length, eqOrOne (xs'.getD k 1) (ys'.getD k 1) := by
        intro k hkk
        have := hk (k + 1) (by simp; omega)
        simpa using this
      simp only [bcastZip, bcastDim_ok h0, except_bind_ok,
        ih ys' (by simpa using hlen) htail (i + 1), List.zipWith_cons_cons]

theorem bcastZip_err :
    ∀ (xs ys : List Nat) (j : Nat), xs.length = ys.length →
      j < xs.length → ¬ eqOrOne (xs.getD j 1) (ys.getD j 1) →
      (∀ k < j, eqOrOne (xs.getD k 1) (ys.getD k 1)) →
      ∀ i, bcastZip i xs ys =
        .error (.broadcastError (i + j) (xs.getD j 1) (ys.getD j 1)) := by
  intro xs
  induction xs with
  | nil => intro ys j _ hj; simp at hj
  | cons x xs' ih =>
    intro ys j hlen hj hbad hgood i
    match ys with
    | y :: ys' =>
      cases j with
      | zero =>
        have : bcastDim i x y = .error (.broadcastError i x y) :=
          bcastDim_err (by simpa using hbad) i
        simp only [bcastZip, this, except_bind_error]
        simp
      | succ j =>
        have h0 : eqOrOne x y := by have := hgood 0 (by omega); simpa using this
        have htail := ih ys' j (by simpa using hlen) (by simpa using hj)
          (by simpa using hbad)
          (fun k hkk => by have := hgood (k + 1) (by omega); simpa using this)
        simp only [bcastZip, bcastDim_ok h0, except_bind_ok, htail (i + 1)]
        have : i + 1 + j = i + (j + 1) := by omega
        rw [this]
        rfl

theorem compat_padded {a b : List Nat} (hc : BroadcastCompatible a b) :
    ∀ k < max a.length b.length,
      eqOrOne ((padOnes (max a.length b.length) a).getD k 1)
        ((padOnes (max a.length b.length) b).getD k 1) := by
  intro k hk
  rw [padOnes_getD (by omega) hk, padOnes_getD (by omega) hk]
  exact hc _ (by omega)

theorem broadcast_shapes_ok {a b : List Nat} (hc : BroadcastCompatible a b) :
    broadcast_shapes a b = .ok (broadcastShapeSpec a b) := by
  unfold broadcast_shapes
  have hla : a.length ≤ max a.length b.length := by omega
  have hlb : b.length ≤ max a.length b.length := by omega
  have hzip := bcastZip_ok (padOnes (max a.length b.length) a)
    (padOnes (max a.length b.length) b)
    (by rw [padOnes_length hla, padOnes_length hlb])
    (by rw [padOnes_length hla]; exact compat_padded hc) 0
  rw [hzip]
  congr 1
  apply List.ext_getElem
  · simp [broadcastShapeSpec, padOnes_length hla, padOnes_length hlb]
  · intro i h1 h2
    have hiL : i < max a.length b.length := by
      rw [List.length_zipWith, padOnes_length hla, padOnes_length hlb] at h1
      simpa using h1
    have hia : i < (padOnes (max a.length b.length) a).length := by
      rw [padOnes_length hla]; exact hiL
    have hib : i < (padOnes (max a.length b.length) b).length := by
      rw [padOnes_length hlb]; exact hiL
    rw [List.getElem_zipWith]
    have hpa : (padOnes (max a.length b.length) a)[i] =
        a.reverse.getD (max a.length b.length - 1 - i) 1 := by
      rw [← padOnes_getD hla hiL, List.getD_eq_getElem?_getD,
        List.getElem?_eq_getElem hia]
      rfl
    have hpb : (padOnes (max a.length b.length) b)[i] =
        b.reverse.getD (max a.length b.length - 1 - i) 1 := by
      rw [← padOnes_getD hlb hiL, List.getD_eq_getElem?_getD,
        List.getElem?_eq_getElem hib]
      rfl
    rw [hpa, hpb]
    unfold broadcastShapeSpec
    rw [List.getElem_reverse, List.getElem_map, List.getElem_range]
    simp

theorem broadcast_shapes_err {a b : List Nat} (hc : ¬ BroadcastCompatible a b) :
    ∃ j < max a.length b.length,
      (∀ k < j, eqOrOne (alignedLeft a (max a.length b.length) k)
        (alignedLeft b (max a.length b.length) k)) ∧
      ¬ eqOrOne (alignedLeft a (max a.length b.length) j)
        (alignedLeft b (max a.length b.length) j) ∧
      broadcast_shapes a b = .error (.broadcastError j
        (alignedLeft a (max a.length b.length) j)
        (alignedLeft b (max a.length b.length) j)) := by
  have hla : a.length ≤ max a.length b.length := by omega
  have hlb : b.length ≤ max a.length b.length := by omega
  have hex : ∃ i, i < max a.length b.length ∧
      ¬ eqOrOne (alignedLeft a (max a.length b.length) i)
        (alignedLeft b (max a.length b.length) i) := by
    unfold BroadcastCompatible at hc
    push_neg at hc
    obtain ⟨k, hk, hbadk⟩ := hc
    refine ⟨max a.length b.length - 1 - k, by omega, ?_⟩
    unfold alignedLeft
    have he : max a.length b.length - 1 - (max a.length b.length - 1 - k) = k := by omega
    rw [he]
    exact hbadk
  obtain ⟨hjL, hjbad⟩ := Nat.find_spec hex
  have hmin : ∀ k, k < Nat.find hex →
      ¬(k < max a.length b.length ∧
        ¬ eqOrOne (alignedLeft a (max a.length b.length) k)
          (alignedLeft b (max a.length b.length) k)) := by
    intro k hk
    exact Nat.find_min hex hk
  refine ⟨Nat.find hex, hjL, ?_, hjbad, ?_⟩
  · intro k hk
    have hnk := hmin k hk
    push_neg at hnk
    exact hnk (by omega)
  · unfold broadcast_shapes
    have hbad' : ¬ eqOrOne ((padOnes (max a.length b.length) a).getD (Nat.find hex) 1)
        ((padOnes (max a.length b.length) b).getD (Nat.find hex) 1) := by
      rw [padOnes_getD hla hjL, padOnes_getD hlb hjL]
      exact hjbad
    have hgood' : ∀ k < Nat.find hex,
        eqOrOne ((padOnes (max a.length b.length) a).getD k 1)
          ((padOnes (max a.length b.length) b).getD k 1) := by
      intro k hk
      rw [padOnes_getD hla (by omega), padOnes_getD hlb (by omega)]
      have hnk := hmin k hk
      push_neg at hnk
      exact hnk (by omega)
    rw [bcastZip_err (padOnes (max a.length b.length) a)
      (padOnes (max a.length b.length) b) (Nat.find hex)
      (by rw [padOnes_length hla, padOnes_length hlb])
      (by rw [padOnes_length hla]; exact hjL) hbad' hgood' 0]
    rw [padOnes_getD hla hjL, padOnes_getD hlb hjL]
    simp [alignedLeft]

theorem getD_irrel {A : Type} {l : List A} {k : Nat} (h : k < l.length) (d1 d2 : A) :
    l.getD k d1 = l.getD k d2 := by
  rw [List.getD_eq_getElem?_getD, List.getD_eq_getElem?_getD,
    List.getElem?_eq_getElem h]
  rfl

theorem getD_drop {A : Type} (l : List A) (n k : Nat) (d : A) :
    (l.drop n).getD k d = l.getD (n + k) d := by
  rw [List.getD_eq_getElem?_getD, List.getD_eq_getElem?_getD, List.getElem?_drop]

theorem bfiGo_pad :
    ∀ (p : Nat) (c s st : List Nat), p ≤ c.length →
      bfiGo c (List.replicate p 1 ++ s) (List.replicate p 0 ++ st) =
        bfiGo (c.drop p) s st := by
  intro p
  induction p with
  | zero => intro c s st _; rfl
  | succ p ih =>
    intro c s st hp
    match c with
    | ci :: cs =>
      show bfiGo (ci :: cs) (1 :: (List.replicate p 1 ++ s)) (0 :: (List.replicate p 0 ++ st)) = _
      simp only [bfiGo, if_true]
      rw [if_neg (by omega)]
      rw [ih cs s st (by simpa using hp), List.drop_succ_cons]
      cases hres : bfiGo (cs.drop p) s st with
      | error e => rfl
      | ok v => simp [except_bind_ok]

theorem bfiGo_core (s : List Nat) :
    ∀ (c' o' : List Nat), c'.length = s.length → o'.length = s.length →
      (∀ k < s.length, s.getD k 0 = o'.getD k 0 ∨ s.getD k 0 = 1) →
      (∀ k < s.length, c'.getD k 0 < o'.getD k 0) →
      bfiGo c' s (compute_strides s) =
        .ok (ravel_static (List.zipWith (fun d ci => if d = 1 then 0 else ci) s c') s) ∧
      (∀ k < s.length,
        (List.zipWith (fun d ci => if d = 1 then 0 else ci) s c').getD k 0 < s.getD k 0) := by
  induction s with
  | nil =>
    intro c' o' hlen _ _ _
    rw [List.length_nil, List.length_eq_zero] at hlen
    subst hlen
    exact ⟨rfl, by intro k hk; simp at hk⟩
  | cons d ss ih =>
    intro c' o' hlen holen halign hb
    match c', o' with
    | ci :: cs, oi :: os =>
      have hd0 : d = oi ∨ d = 1 := by have := halign 0 (by simp); simpa using this
      have hci : ci < oi := by have := hb 0 (by simp); simpa using this
      have halignT : ∀ k < ss.length, ss.getD k 0 = os.getD k 0 ∨ ss.getD k 0 = 1 := by
        intro k hk
        have := halign (k + 1) (by simp; omega)
        simpa using this
      have hbT : ∀ k < ss.length, cs.getD k 0 < os.getD k 0 := by
        intro k hk
        have := hb (k + 1) (by simp; omega)
        simpa using this
      obtain ⟨hrec, hrecb⟩ := ih cs os (by simpa using hlen) (by simpa using holen)
        halignT hbT
      have hidx : (if d = 1 then 0 else ci) < d := by
        by_cases h1 : d = 1
        · simp [h1]
        · rcases hd0 with h | h
          · rw [if_neg h1, h]
            exact hci
          · exact absurd h h1
      constructor
      · simp only [compute_strides, bfiGo]
        rw [if_neg (Nat.not_le.mpr hidx)]
        rw [hrec]
        simp only [except_bind_ok, List.zipWith_cons_cons, ravel_static, compute_strides,
          List.sum_cons]
      · intro k hk
        cases k with
        | zero => simpa using hidx
        | succ k =>
          have := hrecb k (by simpa using hk)
          simpa using this

theorem bfi_spec {t : Tensor α} {oShape : List Nat} (hv : Valid t)
    (hlen : t.shape.length ≤ oShape.length)
    (halign : ∀ k < t.shape.length,
      t.shape.reverse.getD k 1 = oShape.reverse.getD k 1 ∨ t.shape.reverse.getD k 1 = 1)
    (c : List Nat) (hc : c.length = oShape.length)
    (hcb : ∀ k < c.length, c.getD k 0 < oShape.getD k 0) :
    t.broadcasted_flat_index c oShape =
      .ok (ravel_static (projectCoord t.shape c) t.shape) ∧
    (projectCoord t.shape c).length = t.shape.length ∧
    (∀ k < t.shape.length, (projectCoord t.shape c).getD k 0 < t.shape.getD k 0) := by
  have hΔ : oShape.length - t.shape.length + t.shape.length = oShape.length := by omega
  have hdropLen : (c.drop (oShape.length - t.shape.length)).length = t.shape.length := by
    simp [hc]
    omega
  have halignD : ∀ k < t.shape.length,
      t.shape.getD k 0 =
        (oShape.drop (oShape.length - t.shape.length)).getD k 0 ∨
      t.shape.getD k 0 = 1 := by
    intro k hk
    have hj : t.shape.length - 1 - k < t.shape.length := by omega
    have h1 := halign (t.shape.length - 1 - k) hj
    rw [reverse_getD hj] at h1
    have hoj : t.shape.length - 1 - k < oShape.length := by omega
    rw [reverse_getD (by omega : t.shape.length - 1 - k < oShape.length)] at h1
    have hexp1 : t.shape.length - 1 - (t.shape.length - 1 - k) = k := by omega
    rw [hexp1] at h1
    have hexp2 : oShape.length - 1 - (t.shape.length - 1 - k) =
        oShape.length - t.shape.length + k := by omega
    rw [hexp2] at h1
    rw [getD_drop]
    rw [getD_irrel hk 0 1, getD_irrel (by omega : oShape.length - t.shape.length + k < oShape.length) 0 1]
    exact h1
  have hbD : ∀ k < t.shape.length,
      (c.drop (oShape.length - t.shape.length)).getD k 0 <
        (oShape.drop (oShape.length - t.shape.length)).getD k 0 := by
    intro k hk
    rw [getD_drop, getD_drop]
    exact hcb _ (by omega)
  obtain ⟨hcore, hcoreb⟩ := bfiGo_core t.shape (c.drop (oShape.length - t.shape.length))
    (oShape.drop (oShape.length - t.shape.length)) hdropLen (by simp; omega) halignD hbD
  have hproj : projectCoord t.shape c =
      List.zipWith (fun d ci => if d = 1 then 0 else ci) t.shape
        (c.drop (oShape.length - t.shape.length)) := by
    unfold projectCoord
    rw [hc]
  refine ⟨?_, ?_, ?_⟩
  · unfold Tensor.broadcasted_flat_index
    rw [if_neg (by omega)]
    unfold padOnes padZeros
    rw [hv.2.2, compute_strides_length]
    rw [bfiGo_pad (oShape.length - t.shape.length) c t.shape (compute_strides t.shape)
      (by omega)]
    rw [hcore, hproj]
  · rw [hproj]
    simp [hdropLen]
  · intro k hk
    rw [hproj]
    exact hcoreb k hk

theorem stretch_left {x y : Nat} (h : eqOrOne x y) : x = stretchDim x y ∨ x = 1 := by
  unfold stretchDim
  rcases h with h | h | h
  · subst h
    by_cases h1 : x = 1
    · right; exact h1
    · left; rw [if_neg h1]
  · right; exact h
  · subst h
    by_cases h1 : x = 1
    · right; exact h1
    · left; rw [if_neg h1]

theorem stretch_right {x y : Nat} (h : eqOrOne x y) : y = stretchDim x y ∨ y = 1 := by
  unfold stretchDim
  rcases h with h | h | h
  · subst h
    by_cases h1 : x = 1
    · left; rw [if_pos h1]
    · left; rw [if_neg h1]
  · subst h
    left
    rw [if_pos rfl]
  · right; exact h

theorem broadcastShapeSpec_length (a b : List Nat) :
    (broadcastShapeSpec a b).length = max a.length b.length := by
  simp [broadcastShapeSpec]

theorem broadcastShapeSpec_rev_getD {a b : List Nat} {k : Nat}
    (hk : k < max a.length b.length) :
    (broadcastShapeSpec a b).reverse.getD k 1 =
      stretchDim (a.reverse.getD k 1) (b.reverse.getD k 1) := by
  unfold broadcastShapeSpec
  rw [List.reverse_reverse, getD_map_range _ 1 hk]

theorem ewData_spec {t u : Tensor α} {oShape : List Nat} (f : Fl α → Fl α → Fl α)
    (haf : ∀ i < oShape.prod, t.broadcasted_flat_index (unravel_static i oShape) oShape =
      .ok (ravel_static (projectCoord t.shape (unravel_static i oShape)) t.shape))
    (hbf : ∀ i < oShape.prod, u.broadcasted_flat_index (unravel_static i oShape) oShape =
      .ok (ravel_static (projectCoord u.shape (unravel_static i oShape)) u.shape)) :
    ∀ n k, k + n ≤ oShape.prod →
      ewData t u f oShape k n = .ok ((List.range' k n).map (fun i =>
        f (t.data.getD
            (ravel_static (projectCoord t.shape (unravel_static i oShape)) t.shape) .nan)
          (u.data.getD
            (ravel_static (projectCoord u.shape (unravel_static i oShape)) u.shape) .nan))) := by
  intro n
  induction n with
  | zero => intro k h; rfl
  | succ n ih =>
    intro k h
    have hk : k < oShape.prod := by omega
    simp only [ewData, haf k hk, hbf k hk, except_bind_ok, ih (k + 1) (by omega)]
    rw [List.range'_succ]
    rfl

/-- The success characterization of the elementwise engine: on valid,
broadcast-compatible tensors every elementwise operation returns a tensor
of the spec's broadcast shape whose element at every in-bounds coordinate
is `f` applied to the elements at the projected operand coordinates. -/
theorem elementwise_spec {t u : Tensor α} (f : Fl α → Fl α → Fl α)
    (hv1 : Valid t) (hv2 : Valid u) (hc : BroadcastCompatible t.shape u.shape) :
    ∃ out, t.elementwise_op u f = .ok out ∧
      out.shape = broadcastShapeSpec t.shape u.shape ∧
      Valid out ∧
      ∀ c, InBounds c out.shape →
        out.data.getD (ravel_static c out.shape) .nan =
          f (t.data.getD (ravel_static (projectCoord t.shape c) t.shape) .nan)
            (u.data.getD (ravel_static (projectCoord u.shape c) u.shape) .nan) := by
  have hbs := broadcast_shapes_ok hc
  have hLt : t.shape.length ≤ (broadcastShapeSpec t.shape u.shape).length := by
    rw [broadcastShapeSpec_length]
    omega
  have hLu : u.shape.length ≤ (broadcastShapeSpec t.shape u.shape).length := by
    rw [broadcastShapeSpec_length]
    omega
  have hne : broadcastShapeSpec t.shape u.shape ≠ [] := by
    have h1 : 0 < t.shape.length := List.length_pos.mpr hv1.2.1
    have h2 : 0 < (broadcastShapeSpec t.shape u.shape).length := by
      rw [broadcastShapeSpec_length]
      omega
    exact List.ne_nil_of_length_pos h2
  have halT : ∀ k < t.shape.length,
      t.shape.reverse.getD k 1 =
        (broadcastShapeSpec t.shape u.shape).reverse.getD k 1 ∨
      t.shape.reverse.getD k 1 = 1 := by
    intro k hk
    rw [broadcastShapeSpec_rev_getD (by omega)]
    exact stretch_left (hc k (by omega))
  have halU : ∀ k < u.shape.length,
      u.shape.reverse.getD k 1 =
        (broadcastShapeSpec t.shape u.shape).reverse.getD k 1 ∨
      u.shape.reverse.getD k 1 = 1 := by
    intro k hk
    rw [broadcastShapeSpec_rev_getD (by omega)]
    exact stretch_right (hc k (by omega))
  have hbfT : ∀ i < (broadcastShapeSpec t.shape u.shape).prod,
      t.broadcasted_flat_index (unravel_static i (broadcastShapeSpec t.shape u.shape))
          (broadcastShapeSpec t.shape u.shape) =
        .ok (ravel_static
          (projectCoord t.shape (unravel_static i (broadcastShapeSpec t.shape u.shape)))
          t.shape) := by
    intro i hi
    exact (bfi_spec hv1 hLt halT _ (unravel_static_length _ i)
      (fun k hk => unravel_bounds _ i hi k (by rwa [unravel_static_length] at hk))).1
  have hbfU : ∀ i < (broadcastShapeSpec t.shape u.shape).prod,
      u.broadcasted_flat_index (unravel_static i (broadcastShapeSpec t.shape u.shape))
          (broadcastShapeSpec t.shape u.shape) =
        .ok (ravel_static
          (projectCoord u.shape (unravel_static i (broadcastShapeSpec t.shape u.shape)))
          u.shape) := by
    intro i hi
    exact (bfi_spec hv2 hLu halU _ (unravel_static_length _ i)
      (fun k hk => unravel_bounds _ i hi k (by rwa [unravel_static_length] at hk))).1
  have hz : Tensor.zeros (α := α) (broadcastShapeSpec t.shape u.shape) =
      .ok ⟨List.replicate (broadcastShapeSpec t.shape u.shape).prod (Fl.val 0),
        broadcastShapeSpec t.shape u.shape,
        compute_strides (broadcastShapeSpec t.shape u.shape)⟩ := by
    unfold Tensor.zeros Tensor.new
    rw [if_neg (by simpa using hne), if_neg (by simp)]
  have hdata := ewData_spec (t := t) (u := u) f hbfT hbfU
    (broadcastShapeSpec t.shape u.shape).prod 0 (by omega)
  refine ⟨⟨(List.range' 0 (broadcastShapeSpec t.shape u.shape).prod).map (fun i =>
      f (t.data.getD
          (ravel_static
            (projectCoord t.shape (unravel_static i (broadcastShapeSpec t.shape u.shape)))
            t.shape) .nan)
        (u.data.getD
          (ravel_static
            (projectCoord u.shape (unravel_static i (broadcastShapeSpec t.shape u.shape)))
            u.shape) .nan)),
      broadcastShapeSpec t.shape u.shape,
      compute_strides (broadcastShapeSpec t.shape u.shape)⟩, ?_, rfl,
    ⟨by simp, hne, rfl⟩, ?_⟩
  · unfold Tensor.elementwise_op
    rw [hbs, except_bind_ok, hz, except_bind_ok]
    simp only [List.length_replicate]
    rw [hdata, except_bind_ok]
  · intro c hcb
    obtain ⟨hclen, hcdim⟩ := hcb
    have hflat : ravel_static c (broadcastShapeSpec t.shape u.shape) <
        (broadcastShapeSpec t.shape u.shape).prod :=
      ravel_static_lt _ c hclen hcdim
    simp only
    rw [← List.range_eq_range', getD_map_range _ Fl.nan hflat]
    rw [unravel_ravel _ c hclen hcdim]

/-- The failure characterization: incompatible shapes make every
elementwise operation fail with a broadcast error naming the first
offending (left-counted) aligned dimension and both aligned sizes. -/
theorem elementwise_err {t u : Tensor α} (f : Fl α → Fl α → Fl α)
    (hc : ¬ BroadcastCompatible t.shape u.shape) :
    ∃ j < max t.shape.length u.shape.length,
      (∀ k < j, eqOrOne (alignedLeft t.shape (max t.shape.length u.shape.length) k)
        (alignedLeft u.shape (max t.shape.length u.shape.length) k)) ∧
      ¬ eqOrOne (alignedLeft t.shape (max t.shape.length u.shape.length) j)
        (alignedLeft u.shape (max t.shape.length u.shape.length) j) ∧
      t.elementwise_op u f = .error (.broadcastError j
        (alignedLeft t.shape (max t.shape.length u.shape.length) j)
        (alignedLeft u.shape (max t.shape.length u.shape.length) j)) := by
  obtain ⟨j, hj, hgood, hbad, herr⟩ := broadcast_shapes_err hc
  refine ⟨j, hj, hgood, hbad, ?_⟩
  unfold Tensor.elementwise_op
  rw [herr]
  rfl

/-! ## C4: the broadcasting characterization of elementwise arithmetic -/

/-- C4: for every pair of valid tensors, elementwise add / subtract /
multiply / divide succeed exactly when the two shapes are
broadcast-compatible (right-aligned, each dimension pair equal or one of
them 1), returning the broadcast output shape with each output element
obtained by mapping the output coordinate into each operand (size-1
dimensions mapping to index 0); otherwise all four fail with a broadcast
error carrying the first offending dimension index and both aligned sizes.
In particular, for A of shape [3] and B of shape [1], add(A, B) has shape
[3] with element i equal to A[i] + B[0]. -/
theorem c4_broadcast_elementwise {t u : Tensor α} (hv1 : Valid t) (hv2 : Valid u) :
    ((BroadcastCompatible t.shape u.shape →
        EwOkSpec t u Fl.add (t.add u) ∧
        EwOkSpec t u Fl.sub (t.subtract u) ∧
        EwOkSpec t u Fl.mul (t.multiply u) ∧
        EwOkSpec t u Fl.divGuard (t.divide u)) ∧
      (¬ BroadcastCompatible t.shape u.shape →
        EwErrSpec t u (t.add u) ∧
        EwErrSpec t u (t.subtract u) ∧
        EwErrSpec t u (t.multiply u) ∧
        EwErrSpec t u (t.divide u))) ∧
    (∀ x1 x2 x3 y : α,
      Tensor.add (⟨[.val x1, .val x2, .val x3], [3], [1]⟩ : Tensor α)
          ⟨[.val y], [1], [1]⟩ =
        .ok ⟨[.val (x1 + y), .val (x2 + y), .val (x3 + y)], [3], [1]⟩) := by
  refine ⟨⟨fun hc => ⟨?_, ?_, ?_, ?_⟩, fun hc => ⟨?_, ?_, ?_, ?_⟩⟩, ?_⟩
  · exact elementwise_spec Fl.add hv1 hv2 hc
  · exact elementwise_spec Fl.sub hv1 hv2 hc
  · exact elementwise_spec Fl.mul hv1 hv2 hc
  · exact elementwise_spec Fl.divGuard hv1 hv2 hc
  · exact elementwise_err Fl.add hc
  · exact elementwise_err Fl.sub hc
  · exact elementwise_err Fl.mul hc
  · exact elementwise_err Fl.divGuard hc
  · intro x1 x2 x3 y
    rfl

theorem c4_broadcast_elementwise_witness :
    Valid (⟨[Fl.val 1, Fl.val 2, Fl.val 3], [3], [1]⟩ : Tensor ℚ) ∧
    Valid (⟨[Fl.val 5], [1], [1]⟩ : Tensor ℚ) ∧
    (((BroadcastCompatible [3] [1] →
        EwOkSpec (⟨[Fl.val 1, Fl.val 2, Fl.val 3], [3], [1]⟩ : Tensor ℚ)
          ⟨[Fl.val 5], [1], [1]⟩ Fl.add
          (Tensor.add ⟨[Fl.val 1, Fl.val 2, Fl.val 3], [3], [1]⟩
            ⟨[Fl.val 5], [1], [1]⟩) ∧
        EwOkSpec (⟨[Fl.val 1, Fl.val 2, Fl.val 3], [3], [1]⟩ : Tensor ℚ)
          ⟨[Fl.val 5], [1], [1]⟩ Fl.sub
          (Tensor.subtract ⟨[Fl.val 1, Fl.val 2, Fl.val 3], [3], [1]⟩
            ⟨[Fl.val 5], [1], [1]⟩) ∧
        EwOkSpec (⟨[Fl.val 1, Fl.val 2, Fl.val 3], [3], [1]⟩ : Tensor ℚ)
          ⟨[Fl.val 5], [1], [1]⟩ Fl.mul
          (Tensor.multiply ⟨[Fl.val 1, Fl.val 2, Fl.val 3], [3], [1]⟩
            ⟨[Fl.val 5], [1], [1]⟩) ∧
        EwOkSpec (⟨[Fl.val 1, Fl.val 2, Fl.val 3], [3], [1]⟩ : Tensor ℚ)
          ⟨[Fl.val 5], [1], [1]⟩ Fl.divGuard
          (Tensor.divide ⟨[Fl.val 1, Fl.val 2, Fl.val 3], [3], [1]⟩
            ⟨[Fl.val 5], [1], [1]⟩)) ∧
      (¬ BroadcastCompatible [3] [1] →
        EwErrSpec (⟨[Fl.val 1, Fl.val 2, Fl.val 3], [3], [1]⟩ : Tensor ℚ)
          ⟨[Fl.val 5], [1], [1]⟩
          (Tensor.add ⟨[Fl.val 1, Fl.val 2, Fl.val 3], [3], [1]⟩
            ⟨[Fl.val 5], [1], [1]⟩) ∧
        EwErrSpec (⟨[Fl.val 1, Fl.val 2, Fl.val 3], [3], [1]⟩ : Tensor ℚ)
          ⟨[Fl.val 5], [1], [1]⟩
          (Tensor.subtract ⟨[Fl.val 1, Fl.val 2, Fl.val 3], [3], [1]⟩
            ⟨[Fl.val 5], [1], [1]⟩) ∧
        EwErrSpec (⟨[Fl.val 1, Fl.val 2, Fl.val 3], [3], [1]⟩ : Tensor ℚ)
          ⟨[Fl.val 5], [1], [1]⟩
          (Tensor.multiply ⟨[Fl.val 1, Fl.val 2, Fl.val 3], [3], [1]⟩
            ⟨[Fl.val 5], [1], [1]⟩) ∧
        EwErrSpec (⟨[Fl.val 1, Fl.val 2, Fl.val 3], [3], [1]⟩ : Tensor ℚ)
          ⟨[Fl.val 5], [1], [1]⟩
          (Tensor.divide ⟨[Fl.val 1, Fl.val 2, Fl.val 3], [3], [1]⟩
            ⟨[Fl.val 5], [1], [1]⟩))) ∧
      (∀ x1 x2 x3 y : ℚ,
        Tensor.add (⟨[.val x1, .val x2, .val x3], [3], [1]⟩ : Tensor ℚ)
            ⟨[.val y], [1], [1]⟩ =
          .ok ⟨[.val (x1 + y), .val (x2 + y), .val (x3 + y)], [3], [1]⟩)) :=
  ⟨by decide, by decide,
    c4_broadcast_elementwise (α := ℚ)
      (t := ⟨[Fl.val 1, Fl.val 2, Fl.val 3], [3], [1]⟩)
      (u := ⟨[Fl.val 5], [1], [1]⟩) (by decide) (by decide)⟩

/-! ## C8: division by zero yields NaN, never an error -/

/-- C8: on every broadcast-compatible pair of valid tensors, divide
returns Ok (never an error on account of a zero divisor), and at every
output position where the broadcast divisor element is 0 the result
element is NaN. -/
theorem c8_divide_zero_nan {t u : Tensor α} (hv1 : Valid t) (hv2 : Valid u)
    (hc : BroadcastCompatible t.shape u.shape) :
    ∃ out, t.divide u = .ok out ∧
      out.shape = broadcastShapeSpec t.shape u.shape ∧
      ∀ c, InBounds c out.shape →
        u.data.getD (ravel_static (projectCoord u.shape c) u.shape) .nan = Fl.val 0 →
        out.data.getD (ravel_static c out.shape) .nan = .nan := by
  obtain ⟨out, hok, hsh, hvo, helem⟩ := elementwise_spec Fl.divGuard hv1 hv2 hc
  refine ⟨out, hok, hsh, ?_⟩
  intro c hcb hz
  rw [helem c hcb, hz]
  simp [Fl.divGuard]

theorem c8_divide_zero_nan_witness :
    Valid (⟨[Fl.val 1], [1], [1]⟩ : Tensor ℚ) ∧
    Valid (⟨[Fl.val 0], [1], [1]⟩ : Tensor ℚ) ∧
    BroadcastCompatible [1] [1] ∧
    (∃ out, Tensor.divide (⟨[Fl.val 1], [1], [1]⟩ : Tensor ℚ)
        ⟨[Fl.val 0], [1], [1]⟩ = .ok out ∧
      out.shape = broadcastShapeSpec [1] [1] ∧
      ∀ c, InBounds c out.shape →
        (⟨[Fl.val 0], [1], [1]⟩ : Tensor ℚ).data.getD
            (ravel_static (projectCoord [1] c) [1]) .nan = Fl.val 0 →
        out.data.getD (ravel_static c out.shape) .nan = .nan) :=
  ⟨by decide, by decide, by decide,
    c8_divide_zero_nan (α := ℚ)
      (t := ⟨[Fl.val 1], [1], [1]⟩)
      (u := ⟨[Fl.val 0], [1], [1]⟩) (by decide) (by decide) (by decide)⟩
